import Mathlib

/-!
Shallow embedding of the `zip-rs` DEFLATE codec (src/bitstream.rs, src/huffman.rs,
src/deflate.rs, src/gzip.rs) and verification of the specification claims.

Conventions of the embedding:
* Machine integers (`u8`, `u16`, `u32`, `usize`) become `Nat`; wherever the Rust
  release build wraps, the wrap is written explicitly as `% 2 ^ w`.
* Fallible code (`Result<_, io::Error>`) becomes `Except RErr`.
* `assert!` (kept in release builds) becomes the distinguished error
  `RErr.assertFail`, so that a panic and an `Err` return are told apart;
  `debug_assert!` (compiled out of release builds) is not modelled.
* Byte streams are `List Nat` with entries below 256.
* Loops without a structural variant are given an explicit fuel that dominates
  the number of iterations the Rust loop can make.
-/

/-- Error outcomes of the embedded Rust code: an I/O end-of-file, an ordinary
`Err(Error::new(..))` return with its message, a panicking `assert!`, or fuel
exhaustion of the embedding (never reached on the inputs used here). -/
inductive RErr : Type where
  | eofErr : RErr
  | other : String → RErr
  | assertFail : String → RErr
  | noFuel : RErr
  deriving DecidableEq, Repr

instance {α : Type} [DecidableEq α] : DecidableEq (Except RErr α) := fun a b =>
  match a, b with
  | .ok x, .ok y =>
      if h : x = y then .isTrue (by rw [h]) else .isFalse (by simp [h])
  | .ok _, .error _ => .isFalse (by simp)
  | .error _, .ok _ => .isFalse (by simp)
  | .error e, .error f =>
      if h : e = f then .isTrue (by rw [h]) else .isFalse (by simp [h])

/-! ## Bit stream (src/bitstream.rs)

`reverse` and `BitReader` are translated from `src/bitstream.rs`.  The
`BitWriter` used by `src/deflate.rs` (`BitWriter::new()` with no sink,
`write_bits(bits, len) -> Vec<u8>` returning the completed bytes and
`flush() -> Option<u8>`) is not present under `src/`; it is modelled from the
spec (§4.1): LSB-first accumulation, whole bytes emitted as soon as 8 bits are
valid, flush pads the final partial byte with zero bits on top. -/

/-- Bit reversal of the low `n` bits of a 16-bit word, from `reverse` in
src/bitstream.rs (the swap-adjacent-groups pyramid with early exits). -/
def reverse (a n : Nat) : Nat :=
  let v := a
  if n = 1 then v else
  let v := ((v >>> 1) &&& 0x5555) ||| ((v &&& 0x5555) <<< 1)
  if n = 2 then v else
  let v := ((v >>> 2) &&& 0x3333) ||| ((v &&& 0x3333) <<< 2)
  if n ≤ 4 then v >>> (4 - n) else
  let v := ((v >>> 4) &&& 0x0F0F) ||| ((v &&& 0x0F0F) <<< 4)
  if n ≤ 8 then v >>> (8 - n) else
  let v := ((v >>> 8) &&& 0x00FF) ||| ((v &&& 0x00FF) <<< 8)
  v >>> (16 - n)

/-- State of `BitReader<R>`: the underlying byte stream with a read position,
plus the bit accumulator `acc` and its valid-bit count `bits`. -/
structure BitReader : Type where
  data : List Nat
  pos : Nat
  acc : Nat
  bits : Nat
  deriving Repr, DecidableEq

/-- BitReader::new. -/
def BitReader.new (d : List Nat) : BitReader := ⟨d, 0, 0, 0⟩

/-- The byte-pulling `while self.bits < n` loop of `read_bits`; each iteration
pulls one byte, so `n` iterations always suffice (each adds 8 bits). -/
def brFill (fuel n : Nat) (r : BitReader) : Except RErr BitReader :=
  match fuel with
  | 0 => if r.bits < n then .error .noFuel else .ok r
  | f + 1 =>
    if r.bits < n then
      match r.data.get? r.pos with
      | none => .error .eofErr
      | some byte =>
          brFill f n
            { r with
              pos := r.pos + 1
              acc := r.acc ||| (byte <<< r.bits)
              bits := r.bits + 8 }
    else .ok r

/-- BitReader::read_bits from src/bitstream.rs.  `ord = true` is LSB-first
(natural order), `ord = false` reverses the `n`-bit field (Huffman order). -/
def BitReader.readBits (r : BitReader) (n : Nat) (ord : Bool) :
    Except RErr (Nat × BitReader) :=
  if 16 < n then .error (.assertFail "n <= 16") else
  match brFill n n r with
  | .error e => .error e
  | .ok r' =>
      let res := r'.acc &&& (2 ^ n - 1)
      let r'' : BitReader :=
        { r' with acc := r'.acc >>> n, bits := r'.bits - n }
      .ok (if ord then res else reverse res n, r'')

/-- State of the `BitWriter` used by src/deflate.rs.  Modelled from the spec:
not present under src/ (the `bitstream.rs` in the tree has a different,
sink-based API); §4.1 fixes the behaviour: LSB-first accumulator, whole bytes
emitted once 8 bits are valid, flush emits the residual bits zero-padded. -/
structure BitWriter : Type where
  acc : Nat
  bits : Nat
  deriving Repr, DecidableEq

/-- BitWriter::new() as used in src/deflate.rs. -/
def BitWriter.new : BitWriter := ⟨0, 0⟩

/-- Emit the completed whole bytes held in the accumulator (the `nb = bits/8`
loop of the spec'd writer), returning them LSB-byte first. -/
def bwDrain (fuel : Nat) (w : BitWriter) : List Nat × BitWriter :=
  match fuel with
  | 0 => ([], w)
  | f + 1 =>
    if 8 ≤ w.bits then
      let byte := w.acc &&& 0xFF
      let (rest, w') := bwDrain f { acc := w.acc >>> 8, bits := w.bits - 8 }
      (byte :: rest, w')
    else ([], w)

/-- BitWriter::write_bits(b, n) -> Vec<u8> (modelled from the spec): append `n`
bits of `b` LSB-first above the pending bits, return the bytes completed. -/
def BitWriter.writeBits (w : BitWriter) (b n : Nat) : List Nat × BitWriter :=
  bwDrain (n + 8) { acc := w.acc ||| (b <<< w.bits), bits := w.bits + n }

/-- BitWriter::flush() -> Option<u8> (modelled from the spec): the final
partial byte, zero-padded in the high bits, if any bits are pending. -/
def BitWriter.flushW (w : BitWriter) : Option Nat :=
  if 0 < w.bits then some (w.acc &&& 0xFF) else none

/-- Bytes produced by flushing, as a list (empty or a singleton). -/
def BitWriter.flushBytes (w : BitWriter) : List Nat :=
  match w.flushW with
  | some c => [c]
  | none => []

/-! ## Constants (src/constant.rs; MAX_NUM_LIT and MIN_NUM_LIT are used by
src/deflate.rs and src/huffman.rs but not defined under src/ — modelled from
the spec: the literal/length alphabet has 288 symbols and at least 257
(HLIT ≥ 257) are transmitted). -/

def END_OF_BLOCK : Nat := 256
def HCLEN_ORDER : List Nat := [16, 17, 18, 0, 8, 7, 9, 6, 10, 5, 11, 4, 12, 3, 13, 2, 14, 1, 15]
def MAX_DIST : Nat := 32 * 1024
def MAX_LEN : Nat := 258
def MAX_NUM_BITS : Nat := 15
def MIN_LEN : Nat := 3
def NUM_DIST_CODE : Nat := 30

/-- Modelled from the spec: the full literal/length alphabet size (288). -/
def MAX_NUM_LIT : Nat := 288

/-- Modelled from the spec: the minimum number of transmitted literal/length
code lengths (HLIT ≥ 257, i.e. literals and END_OF_BLOCK only). -/
def MIN_NUM_LIT : Nat := 257

/-! ## Length and distance codes (src/deflate.rs) -/

/-- length_code from src/deflate.rs lines 51–63: the match over `len` with the
shift-based code computation and its hard-coded extra-bit counts. -/
def length_code (len : Nat) : Except RErr (Nat × Nat) :=
  if 3 ≤ len ∧ len ≤ 10 then .ok (len + 254, 0)
  else if 11 ≤ len ∧ len ≤ 18 then .ok (260 + ((len + 1) >>> 1), 1)
  else if 19 ≤ len ∧ len ≤ 34 then .ok (264 + ((len + 1) >>> 2), 2)
  else if 35 ≤ len ∧ len ≤ 66 then .ok (269 + ((len - 3) >>> 3), 3)
  else if 67 ≤ len ∧ len ≤ 130 then .ok (273 + ((len - 3) >>> 4), 4)
  else if 131 ≤ len ∧ len ≤ 257 then .ok (277 + ((len - 3) >>> 5), 5)
  else if len = 258 then .ok (285, 6)
  else .error (.other "Incorrect length")

/-- Floor base-2 logarithm (`Nat.log2`) as a kernel-reducible tail recursion:
halve until below 2, counting the steps (`n` halvings always suffice). -/
def natLog2Go (fuel n acc : Nat) : Nat :=
  match fuel with
  | 0 => acc
  | f + 1 => if 2 ≤ n then natLog2Go f (n / 2) (acc + 1) else acc

/-- Floor base-2 logarithm of a positive number. -/
def natLog2 (n : Nat) : Nat := natLog2Go n n 0

/-- Value of the Rust expression `((dm5 as f32).log2().floor() as usize` for
the values `dm5` can take inside `dist_code` (a 64-bit `dist - 5` with
`dist ≤ 32768`): `0` maps to `0` (the cast of `-inf` saturates to 0),
values below `2^24` are exactly representable in `f32` so the result is
`Nat.log2`, and the wrapped values in `[2^64 - 4, 2^64)` round to `2^64`
whose base-2 logarithm is exactly 64. -/
def f32_log2_floor (n : Nat) : Nat :=
  if n = 0 then 0
  else if n < 2 ^ 24 then natLog2 n
  else 64

/-- dist_code from src/deflate.rs lines 65–73.  `dist - 5` is a `usize`
subtraction: in a release build it wraps modulo `2^64`, which the embedding
makes explicit; the float `log2` is modelled by `f32_log2_floor` and the
`as u8` cast by `% 256`. -/
def dist_code (dist : Nat) : Except RErr (Nat × Nat) :=
  let dm5 := (dist + 2 ^ 64 - 5) % 2 ^ 64
  let bits := f32_log2_floor dm5
  if 1 ≤ dist ∧ dist ≤ 4 then .ok ((dm5 + 4) % 2 ^ 64, bits % 256)
  else if 5 ≤ dist ∧ dist ≤ 32768 then .ok ((dm5 >>> bits) + 4, bits % 256)
  else .error (.other "Wrong distance")

/-- read_length from src/deflate.rs lines 35–49: recover a copy length from a
literal/length symbol `lit ∈ 257..285`, reading the extra bits it needs. -/
def read_length (lit : Nat) (reader : BitReader) :
    Except RErr (Nat × BitReader) :=
  let len := lit - (END_OF_BLOCK + 1)
  if len < 8 then .ok (len + 3, reader)
  else
    let extra_bits := (len - 4) / 4
    match reader.readBits extra_bits true with
    | .error e => .error e
    | .ok (extra, r') =>
        .ok ((1 <<< extra_bits) * 4 + 3 + ((len - 8) % 4) * (1 <<< extra_bits) + extra, r')

/-- read_distance from src/deflate.rs lines 75–84: recover a distance from a
distance code, reading extra bits when `dcode > 3`. -/
def read_distance (dcode : Nat) (reader : BitReader) :
    Except RErr (Nat × BitReader) :=
  if 3 < dcode then
    let extra_bits := (dcode - 2) / 2
    match reader.readBits extra_bits true with
    | .error e => .error e
    | .ok (extra, r') =>
        .ok ((1 <<< extra_bits) * (2 + dcode % 2) + extra + 1, r')
  else .ok (dcode + 1, reader)

/-! ## Huffman codec (src/huffman.rs)

`assign_lengths` builds a Huffman tree with a `BinaryHeap<Char>` whose `Ord`
is flipped (`other.freq.cmp(&self.freq)`), i.e. a min-heap on `freq` in which
equal frequencies compare equal.  `Char` values are either leaves (both
children `None`) or internal nodes (`val = u16::MAX`, both children `Some`),
so the embedding uses a two-constructor tree. -/

/-- The `Char` struct of src/huffman.rs restricted to the two shapes the code
constructs: a leaf with a symbol value, or an internal node (`val = NONLEAF`)
with two children. -/
inductive CTree : Type where
  | leaf : Nat → Nat → CTree
  | node : Nat → CTree → CTree → CTree
  deriving Repr, DecidableEq

/-- Frequency key of a `Char` (the only field its `Ord` implementation uses). -/
def CTree.freq : CTree → Nat
  | .leaf _ f => f
  | .node f _ _ => f

/-- Number of `Char` nodes in a tree (used as fuel for the level walk). -/
def CTree.size : CTree → Nat
  | .leaf _ _ => 1
  | .node _ l r => 1 + l.size + r.size

/-- The flipped `Ord` of `Char`: `a ≤ b` in heap order iff `b.freq ≤ a.freq`
(so the max-heap `BinaryHeap` behaves as a min-heap on `freq`). -/
def heapLe (a b : CTree) : Bool := decide (b.freq ≤ a.freq)

/-- List lookup with a dummy default (all real accesses are in bounds). -/
def ctGetD (l : List CTree) (i : Nat) : CTree := l.getD i (CTree.leaf 0 0)

/-- std BinaryHeap `sift_up(0, pos)` with the hole containing `elem`: move
parents down while the element is strictly greater (here: strictly smaller
`freq`), then drop the element in the hole. -/
def siftUpGo (fuel : Nat) (data : List CTree) (elem : CTree) (pos : Nat) :
    List CTree :=
  match fuel with
  | 0 => data.set pos elem
  | f + 1 =>
    if pos = 0 then data.set pos elem
    else
      let parent := (pos - 1) / 2
      let pv := ctGetD data parent
      if heapLe elem pv then data.set pos elem
      else siftUpGo f (data.set pos pv) elem parent

/-- std BinaryHeap::push: append, then sift the new element up. -/
def heapPush (data : List CTree) (x : CTree) : List CTree :=
  siftUpGo (data.length + 1) (data ++ [x]) x data.length

/-- Hole walk of std BinaryHeap `sift_down_to_bottom`: move the hole to the
bottom, always stepping to the greater child (ties pick the right child, per
`child += (get(child) <= get(child+1))`), returning the data and hole
position. -/
def sdtbGo (fuel : Nat) (data : List CTree) (pos endP : Nat) :
    List CTree × Nat :=
  match fuel with
  | 0 => (data, pos)
  | f + 1 =>
    let child := 2 * pos + 1
    if 2 ≤ endP ∧ child ≤ endP - 2 then
      let child := if heapLe (ctGetD data child) (ctGetD data (child + 1))
        then child + 1 else child
      sdtbGo f (data.set pos (ctGetD data child)) child endP
    else if 1 ≤ endP ∧ child = endP - 1 then
      (data.set pos (ctGetD data child), child)
    else (data, pos)

/-- std BinaryHeap `sift_down_to_bottom(0)` with the hole containing `elem`:
walk the hole to the bottom, then sift `elem` back up from there. -/
def siftDownToBottom (data : List CTree) (elem : CTree) : List CTree :=
  let walked := sdtbGo (data.length + 1) data 0 data.length
  siftUpGo (data.length + 1) walked.1 elem walked.2

/-- std BinaryHeap::pop: remove the last element; if the heap is still
non-empty, it replaces the root (which is returned) via
`sift_down_to_bottom`. -/
def heapPop (data : List CTree) : Option (CTree × List CTree) :=
  match data.getLast? with
  | none => none
  | some lastE =>
    let d := data.dropLast
    if d.isEmpty then some (lastE, [])
    else some (ctGetD d 0, siftDownToBottom d lastE)

/-- Heap-building loop of assign_lengths: push a leaf for every symbol with
non-zero frequency, in symbol order. -/
def buildHeap (v : List Nat) : List CTree :=
  (v.enum.filter (fun p => 0 < p.2)).foldl
    (fun h p => heapPush h (CTree.leaf p.1 p.2)) []

/-- The `while heap.len() > 1` merge loop of assign_lengths: pop the two
minimal trees and push their parent. -/
def mergeLoop (fuel : Nat) (h : List CTree) : List CTree :=
  match fuel with
  | 0 => h
  | f + 1 =>
    if 1 < h.length then
      match heapPop h with
      | none => h
      | some (l, h1) =>
        match heapPop h1 with
        | none => h1
        | some (r, h2) =>
            mergeLoop f (heapPush h2 (CTree.node (l.freq + r.freq) l r))
    else h

/-- Total node count of a list of trees. -/
def sizeList (l : List CTree) : Nat := (l.map CTree.size).sum

/-- The breadth-first level walk of assign_lengths: at each level, queue the
children of every node and record `max(level, 1)` as the length of every leaf
encountered. -/
def bfsGo (fuel : Nat) (todo : List CTree) (level : Nat) (lengths : List Nat) :
    List Nat :=
  match fuel with
  | 0 => lengths
  | f + 1 =>
    match todo with
    | [] => lengths
    | _ =>
      let step := todo.foldl
        (fun (acc : List CTree × List Nat) c =>
          match c with
          | .leaf val _ =>
              (acc.1, acc.2.set val (if 0 < level then level else 1))
          | .node _ l r => (acc.1 ++ [l, r], acc.2))
        ([], lengths)
      bfsGo f step.1 (level + 1) step.2

/-- assign_lengths from src/huffman.rs lines 89–140.  The
`heap.pop().unwrap()` panics when every frequency is zero (empty heap); that
panic is modelled as an `assertFail`. -/
def assign_lengths (v : List Nat) : Except RErr (List Nat) :=
  if v.isEmpty then .ok []
  else
    let h := mergeLoop (buildHeap v).length (buildHeap v)
    match heapPop h with
    | none => .error (.assertFail "called Option::unwrap on a None value")
    | some (root, _) =>
        .ok (bfsGo (root.size + 1) [root] 0 (List.replicate v.length 0))

/-- Huffman decoding table of src/huffman.rs: `count[i]` symbols of length
`i`, `symbol` sorted by (length, symbol). -/
structure HuffmanDec : Type where
  count : List Nat
  symbol : List Nat
  deriving Repr, DecidableEq

/-- HuffmanDec::new(). -/
def HuffmanDec.new : HuffmanDec := ⟨[], []⟩

/-- HuffmanDec::fixed_literal_dec from src/huffman.rs lines 49–70: code
lengths 7 for 256..279, 8 for 0..143 and 280..287, 9 for 144..255. -/
def FIXED_LITERAL_DEC : HuffmanDec :=
  ⟨[0, 0, 0, 0, 0, 0, 0, 24, 152, 112],
   List.range' 256 24 ++ List.range 144 ++ List.range' 280 8 ++ List.range' 144 112⟩

/-- Loop filling `enc` in gen_huffman_enc: for each symbol in order, assign
the (bit-reversed) next code of its length and bump that length's counter.
`next_code[len] += 1` is a `u16` increment, wrapped explicitly. -/
def encFill (v : List Nat) (n : Nat) (next_code : List Nat)
    (enc : List (Nat × Nat)) : List (Nat × Nat) :=
  match v with
  | [] => enc
  | l :: rest =>
    if l ≠ 0 then
      let code := next_code.getD l 0
      encFill rest (n + 1) (next_code.set l ((code + 1) % 65536))
        (enc.set n (reverse code l, l))
    else encFill rest (n + 1) next_code enc

/-- The `next_code` accumulation loop of gen_huffman_enc:
`code = (code + bl_count[bits]) << 1; next_code[bits + 1] = code` for
`bits ∈ [0, max_bits)`, on `u16` values (wrap explicit). -/
def nextCodeLoop (fuel : Nat) (bl_count : List Nat) (bits maxBits code : Nat)
    (next_code : List Nat) : List Nat :=
  match fuel with
  | 0 => next_code
  | f + 1 =>
    if bits < maxBits then
      let code' := ((code + bl_count.getD bits 0) <<< 1) % 65536
      nextCodeLoop f bl_count (bits + 1) maxBits code' (next_code.set (bits + 1) code')
    else next_code

/-- gen_huffman_enc from src/huffman.rs lines 143–166: canonical codes from a
length array, stored bit-reversed.  `v.iter().max().unwrap()` panics on an
empty array. -/
def gen_huffman_enc (v : List Nat) : Except RErr (List (Nat × Nat)) :=
  match v.max? with
  | none => .error (.assertFail "called Option::unwrap on a None value")
  | some maxBits =>
    let bl_count := v.foldl
      (fun (c : List Nat) i => c.set i ((c.getD i 0 + 1) % 65536))
      (List.replicate (maxBits + 1) 0)
    let bl_count := bl_count.set 0 0
    let next_code := nextCodeLoop maxBits bl_count 0 maxBits 0
      (List.replicate (maxBits + 1) 0)
    .ok (encFill v 0 next_code (List.replicate v.length (0, 0)))

/-- Symbol-placement loop of gen_huffman_dec: for each of the first `n`
symbols with non-zero length, place it at its length's offset and bump the
offset. -/
def decFill (lengths : List Nat) (sym : Nat) (offsets symbol : List Nat) :
    List Nat × List Nat :=
  match lengths with
  | [] => (offsets, symbol)
  | l :: rest =>
    if 0 < l then
      decFill rest (sym + 1) (offsets.set l (offsets.getD l 0 + 1))
        (symbol.set (offsets.getD l 0) sym)
    else decFill rest (sym + 1) offsets symbol

/-- Offset-accumulation loop of gen_huffman_dec:
`offsets[i + 1] = offsets[i] + count[i]` for `i ∈ [1, max_bits)`. -/
def offsetsLoop (fuel : Nat) (count : List Nat) (i maxBits : Nat)
    (offsets : List Nat) : List Nat :=
  match fuel with
  | 0 => offsets
  | f + 1 =>
    if i < maxBits then
      offsetsLoop f count (i + 1) maxBits
        (offsets.set (i + 1) (offsets.getD i 0 + count.getD i 0))
    else offsets

/-- gen_huffman_dec from src/huffman.rs lines 168–191.  Panics on an empty
length array (`max().unwrap()`) and on `max_bits > MAX_NUM_BITS`
(`assert!`). -/
def gen_huffman_dec (lengths : List Nat) (n : Nat) : Except RErr HuffmanDec :=
  match lengths.max? with
  | none => .error (.assertFail "called Option::unwrap on a None value")
  | some maxBits =>
    if MAX_NUM_BITS < maxBits then .error (.assertFail "max_bits <= MAX_NUM_BITS")
    else
      let count := lengths.foldl
        (fun (c : List Nat) i => if i ≠ 0 then c.set i (c.getD i 0 + 1) else c)
        (List.replicate (maxBits + 1) 0)
      let offsets := offsetsLoop maxBits count 1 maxBits (List.replicate (maxBits + 1) 0)
      let placed := decFill (lengths.take n) 0 offsets (List.replicate n 0)
      .ok ⟨count, placed.2⟩

/-- Inner `while dec.count[b] == 0` skip of read_code; indexing past the end
of `count` is the Rust out-of-bounds panic. -/
def rcSkip (fuel : Nat) (count : List Nat) (b e : Nat) :
    Except RErr (Nat × Nat) :=
  match fuel with
  | 0 => .error .noFuel
  | f + 1 =>
    match count.get? b with
    | none => .error (.assertFail "index out of bounds")
    | some c => if c = 0 then rcSkip f count (b + 1) (e + 1) else .ok (b, e)

/-- Outer loop of read_code from src/huffman.rs lines 193–221: accumulate
code bits MSB-first, walking the canonical (count, symbol) table.  `bits` and
`first` are `u16` values (shifts wrap, made explicit). -/
def readCodeGo (fuel : Nat) (reader : BitReader) (dec : HuffmanDec)
    (b bits index first : Nat) : Except RErr (Nat × BitReader) :=
  match fuel with
  | 0 => .error .noFuel
  | f + 1 =>
    if b < dec.count.length then
      match rcSkip (dec.count.length + 1) dec.count (b + 1) 1 with
      | .error e => .error e
      | .ok (b', e) =>
        let bits := (bits <<< e) % 65536
        let first := (first <<< e) % 65536
        match reader.readBits e false with
        | .error err => .error err
        | .ok (r, reader') =>
          let bits := bits ||| r
          let ct := dec.count.getD b' 0
          if first ≤ bits ∧ bits < first + ct then
            match dec.symbol.get? (index + bits - first) with
            | none => .error (.assertFail "index out of bounds")
            | some s => .ok (s, reader')
          else
            readCodeGo f reader' dec b' bits (index + ct) (first + ct)
    else .error (.other "Illegal Huffman code")

/-- read_code from src/huffman.rs: decode one Huffman symbol. -/
def read_code (reader : BitReader) (dec : HuffmanDec) :
    Except RErr (Nat × BitReader) :=
  readCodeGo (dec.count.length + 1) reader dec 0 0 0 0

/-! ## Code-length meta-encoding (src/deflate.rs) -/

/-- The CodeLength enum of src/deflate.rs: a single length symbol, or one of
the repeat meta-symbols 16/17/18 with its stored extra-bits value. -/
inductive CodeLength : Type where
  | single : Nat → CodeLength
  | rpt : Nat → Nat → CodeLength
  deriving Repr, DecidableEq

/-- The `match repeat` dump of encode_code_lengths (lines 174–202): emit the
pending run of `prev` given its counted repeats.  The `_ => panic!` arm is
unreachable (`repeat ≤ 138` is an invariant of the loop) and is mapped to the
identity. -/
def eclDump (i rpt prev : Nat) (v : List CodeLength) : List CodeLength :=
  if rpt = 0 then (if 0 < i then v ++ [.single prev] else v)
  else if rpt ≤ 2 then
    v ++ List.replicate (if prev ≠ 0 then rpt + 1 else rpt) (.single prev)
  else if rpt ≤ 10 then
    (if prev ≠ 0 then v ++ [.single prev] else v)
      ++ [.rpt (if prev = 0 then 17 else 16) (rpt - 3)]
  else if rpt ≤ 138 then v ++ [.rpt 18 (rpt - 11)]
  else v

/-- Main loop of encode_code_lengths (lines 164–212).  `rest.isEmpty` is the
source's `i == len - 1` test (the current element is the last). -/
def eclGo (i rpt prev : Nat) (v : List CodeLength) :
    List Nat → List CodeLength
  | [] => v
  | cur :: rest =>
    let matched := cur = prev ∧ (rpt < 6 ∨ cur = 0) ∧ rpt < 138
    if matched ∧ ¬rest.isEmpty then eclGo (i + 1) (rpt + 1) prev v rest
    else
      let rpt' := if matched then rpt + 1 else rpt
      let v₁ := eclDump i rpt' prev v
      let v₂ := if ¬matched ∧ rest.isEmpty then v₁ ++ [.single cur] else v₁
      eclGo (i + 1) (if cur ≠ 0 then 0 else 1) cur v₂ rest

/-- encode_code_lengths from src/deflate.rs lines 155–214. -/
def encode_code_lengths (clen : List Nat) : List CodeLength :=
  if clen.isEmpty then [] else eclGo 0 0 0 [] clen

/-- update_freq from src/deflate.rs lines 216–222: count each emitted
meta-symbol. -/
def update_freq (freq : List Nat) (eclens : List CodeLength) : List Nat :=
  eclens.foldl
    (fun f cl =>
      match cl with
      | .single c => f.set c (f.getD c 0 + 1)
      | .rpt c _ => f.set c (f.getD c 0 + 1))
    freq

/-- The trailing-zero popping loops of src/deflate.rs (`while len > floor &&
last == 0 { pop }`), parameterised by the floor length; each iteration pops
one element, so `|l|` fuel suffices. -/
def popTrailZerosGo (fuel : Nat) (floorLen : Nat) (l : List Nat) : List Nat :=
  match fuel with
  | 0 => l
  | f + 1 =>
    if floorLen < l.length ∧ l.getLast? = some 0 then
      popTrailZerosGo f floorLen l.dropLast
    else l

/-- Trailing-zero popping entry point. -/
def popTrailZeros (floorLen : Nat) (l : List Nat) : List Nat :=
  popTrailZerosGo l.length floorLen l

/-- reordered_code_lengths from src/deflate.rs lines 224–234: permute the 19
meta-lengths into HCLEN_ORDER and trim trailing zeros down to at least 4. -/
def reordered_code_lengths (clens : List Nat) : List Nat :=
  let mapped := (List.range (min HCLEN_ORDER.length clens.length)).foldl
    (fun (m : List Nat) i => m.set i (clens.getD (HCLEN_ORDER.getD i 0) 0))
    (List.replicate HCLEN_ORDER.length 0)
  popTrailZeros 4 mapped

/-- write_code_lengths from src/deflate.rs lines 263–287: serialise the
meta-symbol stream through the meta Huffman encoder, writing each repeat's
stored extra bits after its symbol (2 bits for 16, 3 for 17, 7 for 18; any
other repeat code is the source's `panic!`).  Out-of-range `enc` indexing is
the Rust slice panic. -/
def write_code_lengths (w : BitWriter) (eclens : List CodeLength)
    (enc : List (Nat × Nat)) : Except RErr (List Nat × BitWriter) :=
  match eclens with
  | [] => .ok ([], w)
  | .single c :: rest =>
    match enc.get? c with
    | none => .error (.assertFail "index out of bounds")
    | some (bits, bitLen) =>
      let (b1, w1) := w.writeBits bits bitLen
      match write_code_lengths w1 rest enc with
      | .error e => .error e
      | .ok (bs, w2) => .ok (b1 ++ bs, w2)
  | .rpt l r :: rest =>
    match enc.get? l with
    | none => .error (.assertFail "index out of bounds")
    | some (bits, bitLen) =>
      let (b1, w1) := w.writeBits bits bitLen
      if l = 16 ∨ l = 17 then
        let (b2, w2) := w1.writeBits r (l - 14)
        match write_code_lengths w2 rest enc with
        | .error e => .error e
        | .ok (bs, w3) => .ok (b1 ++ b2 ++ bs, w3)
      else if l = 18 then
        let (b2, w2) := w1.writeBits r 7
        match write_code_lengths w2 rest enc with
        | .error e => .error e
        | .ok (bs, w3) => .ok (b1 ++ b2 ++ bs, w3)
      else .error (.assertFail "Illegal code length Huffman code")

/-- write_code_table from src/deflate.rs lines 236–261: HLIT, HDIST, the
permuted/trimmed meta-code lengths (HCLEN), then both meta-encoded length
sequences.  `lit_clens.len() - 257` and `hclen - 4` are in-range `usize`
subtractions for every reachable input (Nat truncation matches). -/
def write_code_table (w : BitWriter) (lit_clens dist_clens : List Nat) :
    Except RErr (List Nat × BitWriter) :=
  let hlit := lit_clens.length - 257
  let (v1, w1) := w.writeBits hlit 5
  let hdist := dist_clens.length - 1
  let (v2, w2) := w1.writeBits hdist 5
  let lit_eclens := encode_code_lengths lit_clens
  let dist_eclens := encode_code_lengths dist_clens
  let freq := List.replicate HCLEN_ORDER.length 0
  let freq := update_freq freq lit_eclens
  let freq := update_freq freq dist_eclens
  match assign_lengths freq with
  | .error e => .error e
  | .ok clen =>
    let mapped_clens := reordered_code_lengths clen
    let hclen := mapped_clens.length
    let (v3, w3) := w2.writeBits (hclen - 4) 4
    let (v4, w4) := mapped_clens.foldl
      (fun (acc : List Nat × BitWriter) i =>
        let (b, w') := acc.2.writeBits i 3
        (acc.1 ++ b, w'))
      ([], w3)
    match gen_huffman_enc clen with
    | .error e => .error e
    | .ok enc =>
      match write_code_lengths w4 lit_eclens enc with
      | .error e => .error e
      | .ok (v5, w5) =>
        match write_code_lengths w5 dist_eclens enc with
        | .error e => .error e
        | .ok (v6, w6) => .ok (v1 ++ v2 ++ v3 ++ v4 ++ v5 ++ v6, w6)

/-! ## CRC-32 (the `crc` crate's IEEE digest, as used by src/deflate.rs and
src/gzip.rs): reflected polynomial 0xEDB88320, init/xorout !0 applied around
every `write` call, so the running `value` of an incremental digest starting
at 0 is the CRC of the bytes written so far. -/

/-- Eight halving rounds of one CRC-32 table entry. -/
def crcRounds (n v : Nat) : Nat :=
  match n with
  | 0 => v
  | k + 1 => crcRounds k (if v % 2 = 1 then (v >>> 1) ^^^ 0xEDB88320 else v >>> 1)

/-- One incremental `Digest::write` of the crc crate: complement, fold each
byte through the table, complement back. -/
def crc32_update (value : Nat) (bytes : List Nat) : Nat :=
  (bytes.foldl
    (fun v b => crcRounds 8 ((v ^^^ b) % 256) ^^^ (v >>> 8))
    (value ^^^ 0xFFFFFFFF)) ^^^ 0xFFFFFFFF

/-! ## DEFLATE inflate (src/deflate.rs lines 315–417) -/

/-- The `for l in lens.iter_mut().skip(index).take(count)` fill of
read_code_lengths: set `count` consecutive entries to `val`. -/
def setRun (l : List Nat) (start count val : Nat) : List Nat :=
  match count with
  | 0 => l
  | c + 1 => setRun (l.set start val) (start + 1) c val

/-- Body loop of read_code_lengths (src/deflate.rs lines 86–130): read
meta-symbols and fill the length array; each iteration advances `index` by at
least 1, so `n + 1` fuel suffices.  `lens[index - 1]` with `index = 0` is the
Rust wrap-then-index panic. -/
def rclGo (fuel : Nat) (r : BitReader) (dec : HuffmanDec) (n index : Nat)
    (lens : List Nat) : Except RErr (List Nat × BitReader) :=
  match fuel with
  | 0 => .error .noFuel
  | f + 1 =>
    if index < n then
      match read_code r dec with
      | .error e => .error e
      | .ok (s, r1) =>
        if s ≤ 15 then rclGo f r1 dec n (index + 1) (lens.set index s)
        else if s = 16 then
          if index = 0 then .error (.assertFail "index out of bounds")
          else
            let len := lens.getD (index - 1) 0
            match r1.readBits 2 true with
            | .error e => .error e
            | .ok (c, r2) =>
              let count := c + 3
              if index + count ≤ n then
                rclGo f r2 dec n (index + count) (setRun lens index count len)
              else .error (.assertFail "index + count as usize <= n")
        else if s = 17 then
          match r1.readBits 3 true with
          | .error e => .error e
          | .ok (c, r2) =>
            let count := c + 3
            if index + count ≤ n then
              rclGo f r2 dec n (index + count) (setRun lens index count 0)
            else .error (.assertFail "index + count as usize <= n")
        else if s = 18 then
          match r1.readBits 7 true with
          | .error e => .error e
          | .ok (c, r2) =>
            let count := c + 11
            if index + count ≤ n then
              rclGo f r2 dec n (index + count) (setRun lens index count 0)
            else .error (.assertFail "index + count as usize <= n")
        else .error (.other "Bad code length")
    else .ok (lens, r)

/-- read_code_lengths from src/deflate.rs lines 86–130. -/
def read_code_lengths (r : BitReader) (clen_dec : HuffmanDec) (n : Nat) :
    Except RErr (List Nat × BitReader) :=
  rclGo (n + 1) r clen_dec n 0 (List.replicate n 0)

/-- The `for i in HCLEN_ORDER.iter().take(hclen)` read loop of
read_code_table: read a 3-bit length for each listed position. -/
def readHclenLens (ord : List Nat) (r : BitReader) (acc : List Nat) :
    Except RErr (List Nat × BitReader) :=
  match ord with
  | [] => .ok (acc, r)
  | o :: rest =>
    match r.readBits 3 true with
    | .error e => .error e
    | .ok (v, r') => readHclenLens rest r' (acc.set o v)

/-- read_code_table from src/deflate.rs lines 132–153: HLIT/HDIST/HCLEN, the
meta-code lengths in HCLEN_ORDER, then the two main length arrays. -/
def read_code_table (r : BitReader) :
    Except RErr ((HuffmanDec × HuffmanDec) × BitReader) :=
  match r.readBits 5 true with
  | .error e => .error e
  | .ok (hlitRaw, r1) =>
    let hlit := hlitRaw + 257
    match r1.readBits 5 true with
    | .error e => .error e
    | .ok (hdistRaw, r2) =>
      let hdist := hdistRaw + 1
      match r2.readBits 4 true with
      | .error e => .error e
      | .ok (hclenRaw, r3) =>
        let hclen := hclenRaw + 4
        if ¬(hlit ≤ 286 ∧ hclen ≤ HCLEN_ORDER.length ∧ hdist ≤ 32) then
          .error (.assertFail "hlit <= 286 && hclen <= max_hclen && hdist <= 32")
        else
          match readHclenLens (HCLEN_ORDER.take hclen) r3
              (List.replicate HCLEN_ORDER.length 0) with
          | .error e => .error e
          | .ok (hclen_len, r4) =>
            match gen_huffman_dec hclen_len HCLEN_ORDER.length with
            | .error e => .error e
            | .ok clen_dec =>
              match read_code_lengths r4 clen_dec hlit with
              | .error e => .error e
              | .ok (hlit_len, r5) =>
                match read_code_lengths r5 clen_dec hdist with
                | .error e => .error e
                | .ok (hdist_len, r6) =>
                  match gen_huffman_dec hlit_len hlit with
                  | .error e => .error e
                  | .ok d0 =>
                    match gen_huffman_dec hdist_len hdist with
                    | .error e => .error e
                    | .ok d1 => .ok ((d0, d1), r6)

/-- The `while copied + cur_len <= len` segment-repetition loop of the
inflate copy path. -/
def copyLoop (fuel : Nat) (window seg : List Nat) (cur_len copied len : Nat) :
    List Nat × Nat :=
  match fuel with
  | 0 => (window, copied)
  | f + 1 =>
    if copied + cur_len ≤ len then
      copyLoop f (window ++ seg) seg cur_len (copied + cur_len) len
    else (window, copied)

/-- Per-symbol loop of inflate (src/deflate.rs lines 342–413).  Every
iteration consumes at least one input bit, so `8 * |data| + 64` fuel covers
any stream.  State: the three decoders, the sliding `window`, the bytes
already written to the output, the running size (a `u32`) and CRC digest
value. -/
def inflateLoop (fuel : Nat) (bt : Nat) (decs : HuffmanDec × HuffmanDec)
    (r : BitReader) (window out : List Nat) (size crc : Nat) :
    Except RErr ((Nat × Nat) × List Nat × BitReader) :=
  match fuel with
  | 0 => .error .noFuel
  | f + 1 =>
    let litRes : Except RErr (Nat × BitReader) :=
      match bt with
      | 0 => r.readBits 8 false
      | 1 => read_code r FIXED_LITERAL_DEC
      | _ => read_code r decs.1
    match litRes with
    | .error e => .error e
    | .ok (lit, r1) =>
      if lit ≤ 255 then
        if window.length = MAX_DIST then
          let b := window.getD 0 0
          inflateLoop f bt decs r1 (window.drop 1 ++ [lit]) (out ++ [b])
            ((size + 1) % 2 ^ 32) (crc32_update crc [b])
        else
          inflateLoop f bt decs r1 (window ++ [lit]) out
            ((size + 1) % 2 ^ 32) crc
      else if lit = END_OF_BLOCK then
        .ok ((size, crc32_update crc window), out ++ window, r1)
      else if 257 ≤ lit ∧ lit ≤ 285 then
        match read_length lit r1 with
        | .error e => .error e
        | .ok (len, r2) =>
          if ¬(len ≤ MAX_LEN) then .error (.assertFail "len <= MAX_LEN")
          else
            let dcodeRes : Except RErr (Nat × BitReader) :=
              match bt with
              | 1 => r2.readBits 5 false
              | 2 => read_code r2 decs.2
              | _ => .error (.other "Bad block type; Shouldn't reach here")
            match dcodeRes with
            | .error e => .error e
            | .ok (dcode, r3) =>
              if ¬(dcode < NUM_DIST_CODE) then
                .error (.assertFail "dcode < NUM_DIST_CODE")
              else
                match read_distance dcode r3 with
                | .error e => .error e
                | .ok (dist, r4) =>
                  if ¬(0 < dist ∧ dist < MAX_DIST) then
                    .error (.assertFail "dist > 0 && dist < MAX_DIST")
                  else if ¬(dist ≤ window.length) then
                    .error (.assertFail "dist <= window.len()")
                  else
                    let cap := MAX_DIST + MAX_LEN
                    let (window1, out1, crc1) :=
                      if cap < window.length + len then
                        let to_write := window.length + len - cap
                        (window.drop to_write, out ++ window.take to_write,
                         crc32_update crc (window.take to_write))
                      else (window, out, crc)
                    let cur_len := if dist < len then dist else len
                    let first := window1.length - dist
                    let seg := (window1.drop first).take cur_len
                    let (window2, copied) := copyLoop (len + 1) window1 seg cur_len 0 len
                    let window3 :=
                      if copied < len then window2 ++ seg.take (len - copied)
                      else window2
                    inflateLoop f bt decs r4 window3 out1
                      ((size + len) % 2 ^ 32) crc1
      else .error (.other "Bad literal")

/-- inflate from src/deflate.rs lines 315–417: read one block header, build
decoders for a dynamic block, run the symbol loop, and flush the window.
Returns ((decompressed_size, crc32), written bytes, final reader). -/
def inflate (br : BitReader) :
    Except RErr ((Nat × Nat) × List Nat × BitReader) :=
  match br.readBits 1 true with
  | .error e => .error e
  | .ok (_, r1) =>
    match r1.readBits 2 true with
    | .error e => .error e
    | .ok (bt, r2) =>
      if bt ≤ 2 then
        match (if bt = 2 then read_code_table r2
               else .ok ((HuffmanDec.new, HuffmanDec.new), r2)) with
        | .error e => .error e
        | .ok (decs, r3) =>
            inflateLoop (8 * br.data.length + 64) bt decs r3 [] [] 0 0
      else .error (.other "Bad block type")

/-- Result of inflate with the reader state projected away (used in claim
statements). -/
def inflateRes (bytes : List Nat) : Except RErr ((Nat × Nat) × List Nat) :=
  match inflate (BitReader.new bytes) with
  | .error e => .error e
  | .ok (sc, out, _) => .ok (sc, out)

/-! ## DEFLATE deflate (src/deflate.rs lines 419–559) -/

/-- Function-backed fixed-size vector, used for the two large deflate arrays
(the 65535-byte read buffer and the `MAX_DIST`-sized distance histogram),
whose literal list spines would be too deep for kernel evaluation.  `at` is
total; reads beyond `size` are only performed through `get?`/`getD`. -/
structure FVec : Type where
  size : Nat
  fn : Nat → Nat

/-- Element read with bound check (Rust indexing panics out of range; all
in-model accesses are guarded). -/
def FVec.get? (v : FVec) (i : Nat) : Option Nat :=
  if i < v.size then some (v.fn i) else none

/-- Element read with default. -/
def FVec.getD (v : FVec) (i d : Nat) : Nat :=
  if i < v.size then v.fn i else d

/-- Element write (in-range writes only, as in the source). -/
def FVec.set (v : FVec) (i x : Nat) : FVec :=
  ⟨v.size, fun j => if j = i then x else v.fn j⟩

/-- Constant vector (`vec![v; n]` / a zero-initialised buffer). -/
def FVec.replicate (n x : Nat) : FVec := ⟨n, fun _ => x⟩

/-- Materialise an FVec as a list (used after trimming, on small sizes). -/
def FVec.toList (v : FVec) : List Nat := (List.range v.size).map v.fn

/-- Sparse vector for the `MAX_DIST`-sized distance histogram `dfreq`:
positions not listed in `entries` hold 0, and the most recent write of a
position comes first. -/
structure SVec : Type where
  size : Nat
  entries : List (Nat × Nat)

/-- Current value of a position (the most recent write, default 0). -/
def SVec.val (s : SVec) (i : Nat) : Nat :=
  ((s.entries.find? (fun p => p.1 = i)).map Prod.snd).getD 0

/-- Read with bound check and default. -/
def SVec.getD (s : SVec) (i d : Nat) : Nat :=
  if i < s.size then s.val i else d

/-- In-range write (out-of-range indexing would be the Rust panic; all
in-model writes are in range). -/
def SVec.set (s : SVec) (i x : Nat) : SVec :=
  if i < s.size then ⟨s.size, (i, x) :: s.entries⟩ else s

/-- All-zero histogram (`vec![0; n]`). -/
def SVec.replicate (n : Nat) : SVec := ⟨n, []⟩

/-- The `while !dfreq.is_empty() && last == 0 { pop }` trim of deflate: the
loop pops exactly the trailing zeros, so the remaining length is one past the
last non-zero position.  That closed form is computed directly from the
sparse entries, because iterating the loop over all `MAX_DIST` positions
exceeds the kernel's evaluation stack. -/
def SVec.trim (s : SVec) : SVec :=
  ⟨s.entries.foldl
      (fun acc p => if p.1 < s.size ∧ s.val p.1 ≠ 0 then max acc (p.1 + 1) else acc)
      0,
   s.entries⟩

/-- Materialise a sparse vector as a list (used after trimming). -/
def SVec.toList (s : SVec) : List Nat := (List.range s.size).map s.val

/-- The LZ77 enum of src/deflate.rs. -/
inductive LZ77 : Type where
  | lit : Nat → LZ77
  | copy : Nat → Nat → LZ77
  deriving Repr, DecidableEq

/-- Rust `Result::unwrap()`: an `Err` becomes a panic. -/
def unwrapRes {α : Type} : Except RErr α → Except RErr α
  | .ok a => .ok a
  | .error _ => .error (.assertFail "called Result::unwrap on an Err value")

/-- Modelled from the spec: `trans24`, the 24-bit hash of three consecutive
bytes (§4.4), is used by src/deflate.rs but not defined under src/; it is
modelled as little-endian packing like the `trans16/32/64` transmutes in
src/util.rs. -/
def trans24 (b0 b1 b2 : Nat) : Nat := b0 + b1 * 256 + b2 * 65536

/-- compare from src/deflate.rs lines 419–425: common-prefix length of
`buf[i..]` and `buf[j..]`, bounded by `j + len < buf.len()`; indexing
`buf[i + len]` out of bounds is the Rust slice panic. -/
def compareGo (fuel : Nat) (buf : FVec) (i j l : Nat) :
    Except RErr Nat :=
  match fuel with
  | 0 => .error .noFuel
  | f + 1 =>
    if j + l < buf.size then
      match buf.get? (i + l), buf.get? (j + l) with
      | some a, some b =>
          if a = b then compareGo f buf i j (l + 1) else .ok l
      | _, _ => .error (.assertFail "index out of bounds")
    else .ok l

/-- The hash-chain walk of the deflate match search (src/deflate.rs lines
464–474): follow `prev` links within MAX_DIST, keeping the longest match. -/
def chainWalk (fuel : Nat) (buf : FVec) (prev : List Nat) (chunkLen i next maxLen maxDist : Nat) :
    Except RErr (Nat × Nat) :=
  match fuel with
  | 0 => .error .noFuel
  | f + 1 =>
    if next ≠ chunkLen ∧ i - next < MAX_DIST then
      match compareGo 65536 buf i next 0 with
      | .error e => .error e
      | .ok l =>
        let p := if maxLen < l then (l, i - next) else (maxLen, maxDist)
        chainWalk f buf prev chunkLen i (prev.getD next chunkLen) p.1 p.2
    else .ok (maxLen, maxDist)

/-- The per-position LZ77 loop of deflate (src/deflate.rs lines 460–488):
hash the 3-byte window at `i`, consult and update the hash head map and the
`prev` chain, and emit a Copy (length ≥ MIN_LEN) or a Literal.  The head map
is an association list with the most recent insertion first (exactly the
lookups a `HashMap` serves). -/
def lzPositions (fuel : Nat) (buf : FVec) (chunkLen i : Nat)
    (head : List (Nat × Nat)) (prev : List Nat) (vlz : List LZ77)
    (lfreq : List Nat) (dfreq : SVec) :
    Except RErr (List LZ77 × List Nat × SVec) :=
  match fuel with
  | 0 => .error .noFuel
  | f + 1 =>
    if i < chunkLen - 2 then
      let b0 := buf.getD i 0
      let hash := trans24 b0 (buf.getD (i + 1) 0) (buf.getD (i + 2) 0)
      let pi := (((head.find? (fun p => p.1 = hash)).map Prod.snd).getD chunkLen)
      let head' := (hash, i) :: head
      let prev' := prev.set i pi
      match chainWalk (chunkLen + 1) buf prev' chunkLen i pi 0 0 with
      | .error e => .error e
      | .ok (maxLen, maxDist) =>
        if MIN_LEN ≤ maxLen then
          match unwrapRes (length_code maxLen) with
          | .error e => .error e
          | .ok lc =>
            match unwrapRes (dist_code maxDist) with
            | .error e => .error e
            | .ok dc =>
              lzPositions f buf chunkLen (i + 1) head' prev'
                (vlz ++ [.copy maxLen maxDist])
                (lfreq.set lc.1 (lfreq.getD lc.1 0 + 1))
                (dfreq.set dc.1 (dfreq.getD dc.1 0 + 1))
        else
          lzPositions f buf chunkLen (i + 1) head' prev'
            (vlz ++ [.lit b0]) (lfreq.set b0 (lfreq.getD b0 0 + 1)) dfreq
    else .ok (vlz, lfreq, dfreq)

/-- The trailing-literal loop of deflate (src/deflate.rs lines 496–500):
emit positions `begin..len` as literals. -/
def tailLits (buf : FVec) (ps : List Nat) (vlz : List LZ77)
    (lfreq : List Nat) : List LZ77 × List Nat :=
  ps.foldl
    (fun (acc : List LZ77 × List Nat) p =>
      let b := buf.getD p 0
      (acc.1 ++ [.lit b], acc.2.set b (acc.2.getD b 0 + 1)))
    (vlz, lfreq)

/-- The chunked read loop of deflate (src/deflate.rs lines 443–501): read up
to `u16::MAX = 65535` bytes into the (persistent, initially zeroed) buffer,
emit tokens and frequencies for the chunk.  Returns `none` for the
empty-input early `return Ok((0, 0))`. -/
def deflateChunks (fuel : Nat) (input : List Nat) (consumed : Nat)
    (buf : FVec) (w : BitWriter) (vlz : List LZ77)
    (lfreq : List Nat) (dfreq : SVec) (read_len : Nat) :
    Except RErr (Option (BitWriter × List LZ77 × List Nat × SVec)) :=
  match fuel with
  | 0 => .error .noFuel
  | f + 1 =>
    let chunk := (input.drop consumed).take 65535
    let len := chunk.length
    if len = 0 then
      if read_len = 0 then .ok none else .ok (some (w, vlz, lfreq, dfreq))
    else
      let w := if read_len = 0 then (((w.writeBits 1 1).2).writeBits 2 2).2 else w
      let buf : FVec := ⟨buf.size, fun idx => if idx < len then chunk.getD idx 0 else buf.fn idx⟩
      let read_len := read_len + len
      let step : Except RErr (List LZ77 × List Nat × SVec) :=
        if MIN_LEN ≤ len then
          lzPositions (len + 1) buf len 0 [] (List.replicate (len - 2) len)
            vlz lfreq dfreq
        else .ok (vlz, lfreq, dfreq)
      match step with
      | .error e => .error e
      | .ok (vlz1, lfreq1, dfreq1) =>
        let begin := if MIN_LEN ≤ len then len - 2 else 0
        let (vlz2, lfreq2) :=
          tailLits buf ((List.range len).drop begin) vlz1 lfreq1
        deflateChunks f input (consumed + len) buf w vlz2 lfreq2 dfreq1 read_len

/-- dehuffman from src/deflate.rs lines 543–559: map the token stream through
the two encoding tables; the extra-bits value pushed for a Copy is the low
bits of the token's code (`lc.0 & ((1 << lc.1) - 1)`), with the Rust release
shift-amount masking (`% 64`) explicit. -/
def dehuffman (vlz : List LZ77) (lenc denc : List (Nat × Nat)) :
    Except RErr (List (Nat × Nat)) :=
  match vlz with
  | [] => .ok []
  | .lit l :: rest =>
    match lenc.get? l with
    | none => .error (.assertFail "index out of bounds")
    | some e =>
      match dehuffman rest lenc denc with
      | .error err => .error err
      | .ok v => .ok (e :: v)
  | .copy l d :: rest =>
    match unwrapRes (length_code l) with
    | .error e => .error e
    | .ok lc =>
      match lenc.get? lc.1 with
      | none => .error (.assertFail "index out of bounds")
      | some e1 =>
        match unwrapRes (dist_code d) with
        | .error e => .error e
        | .ok dc =>
          match denc.get? dc.1 with
          | none => .error (.assertFail "index out of bounds")
          | some e2 =>
            match dehuffman rest lenc denc with
            | .error err => .error err
            | .ok v =>
              .ok (e1 :: (lc.1 &&& ((1 <<< (lc.2 % 64)) - 1), lc.2) ::
                   e2 :: (dc.1 &&& ((1 <<< (dc.2 % 64)) - 1), dc.2) :: v)

/-- deflate from src/deflate.rs lines 427–541: tokenise the input, build the
dynamic tables, and write the single block.  Returns
((compressed_size, crc32_of_compressed_bytes), compressed bytes). -/
def deflate (input : List Nat) : Except RErr ((Nat × Nat) × List Nat) :=
  match deflateChunks (input.length + 2) input 0 (FVec.replicate 65535 0)
      BitWriter.new [] (List.replicate MAX_NUM_LIT 0)
      (SVec.replicate MAX_DIST) 0 with
  | .error e => .error e
  | .ok none => .ok ((0, 0), [])
  | .ok (some (w, vlz, lfreq0, dfreq0)) =>
    let lfreq := popTrailZeros MIN_NUM_LIT lfreq0
    let dfreq := dfreq0.trim.toList
    let vlz := vlz ++ [.lit END_OF_BLOCK]
    let lfreq := lfreq.set END_OF_BLOCK (lfreq.getD END_OF_BLOCK 0 + 1)
    match assign_lengths lfreq with
    | .error e => .error e
    | .ok lit_clens =>
      match assign_lengths dfreq with
      | .error e => .error e
      | .ok dist_clens0 =>
        let dist_clens := if dist_clens0.isEmpty then [0] else dist_clens0
        match write_code_table w lit_clens dist_clens with
        | .error e => .error e
        | .ok (tableBytes, w1) =>
          match gen_huffman_enc lit_clens with
          | .error e => .error e
          | .ok lenc =>
            match gen_huffman_enc dist_clens with
            | .error e => .error e
            | .ok denc =>
              match dehuffman vlz lenc denc with
              | .error e => .error e
              | .ok vhuff =>
                let (dataBytes, w2) := vhuff.foldl
                  (fun (acc : List Nat × BitWriter) p =>
                    let (b, w') := acc.2.writeBits p.1 p.2
                    (acc.1 ++ b, w'))
                  ([], w1)
                let window := tableBytes ++ dataBytes ++ w2.flushBytes
                .ok ((window.length % 2 ^ 32, crc32_update 0 window), window)

/-! ## C7 groundwork: bit-list semantics -/

/-- Value of an LSB-first bit list. -/
def bitsToNat : List Bool → Nat
  | [] => 0
  | b :: bs => (if b then 1 else 0) + 2 * bitsToNat bs

/-- The `n` low bits of a number, LSB first. -/
def natToBits : Nat → Nat → List Bool
  | 0, _ => []
  | k + 1, v => decide (v % 2 = 1) :: natToBits k (v / 2)

/-- Bit expansion of a byte stream (each byte LSB first). -/
def bytesBits (d : List Nat) : List Bool := d.flatMap (natToBits 8)

theorem natToBits_length (n v : Nat) : (natToBits n v).length = n := by
  induction n generalizing v with
  | zero => rfl
  | succ k ih => simp [natToBits, ih]

theorem bitsToNat_lt (bs : List Bool) : bitsToNat bs < 2 ^ bs.length := by
  induction bs with
  | nil => simp [bitsToNat]
  | cons b bs ih =>
    simp only [bitsToNat, List.length_cons, pow_succ]
    cases b <;> simp <;> omega

theorem bitsToNat_natToBits (n v : Nat) (h : v < 2 ^ n) :
    bitsToNat (natToBits n v) = v := by
  induction n generalizing v with
  | zero => simp at h; simp [natToBits, bitsToNat, h]
  | succ k ih =>
    simp only [natToBits, bitsToNat]
    rw [ih (v / 2) (by rw [pow_succ] at h; omega)]
    rcases Nat.mod_two_eq_zero_or_one v with h2 | h2 <;> simp [h2] <;> omega

theorem bitsToNat_append (xs ys : List Bool) :
    bitsToNat (xs ++ ys) = bitsToNat xs + 2 ^ xs.length * bitsToNat ys := by
  induction xs with
  | nil => simp [bitsToNat]
  | cons b bs ih =>
    simp only [List.cons_append, bitsToNat, ih, List.length_cons, pow_succ]
    ring_nf
    rw [List.append_eq, ih]
    ring

theorem natToBits_bitsToNat_pad (bs : List Bool) (n : Nat) (h : bs.length ≤ n) :
    natToBits n (bitsToNat bs) = bs ++ List.replicate (n - bs.length) false := by
  induction bs generalizing n with
  | nil =>
    simp only [bitsToNat, List.nil_append, List.length_nil, Nat.sub_zero]
    induction n with
    | zero => rfl
    | succ k ih => simp [natToBits, List.replicate_succ, ih]
  | cons b bs ih =>
    match n, h with
    | k + 1, h =>
      simp only [bitsToNat, natToBits]
      have h2 : ((if b then 1 else 0) + 2 * bitsToNat bs) / 2 = bitsToNat bs := by
        cases b with
        | false => simp
        | true => simp; omega
      have h1 : (((if b then 1 else 0) + 2 * bitsToNat bs) % 2 = 1) = (b = true) := by
        cases b with
        | false => simp
        | true => simp
      rw [h2]
      simp only [List.length_cons] at h ⊢
      rw [ih k (by omega)]
      simp only [List.cons_append, Nat.succ_sub_succ]
      congr 1
      cases b <;> simp [h1]

theorem bitsToNat_mod_take (bs : List Bool) (n : Nat) :
    bitsToNat bs % 2 ^ n = bitsToNat (bs.take n) := by
  induction bs generalizing n with
  | nil => simp [bitsToNat]
  | cons b t ih =>
    cases n with
    | zero => simp [bitsToNat, List.take, Nat.mod_one]
    | succ k =>
      simp only [List.take_succ_cons, bitsToNat, pow_succ]
      rw [← ih k]
      have h2 : 2 * bitsToNat t
          = (if b = true then (1 : Nat) else 0) + 2 * bitsToNat t
            - (if b = true then (1 : Nat) else 0) := by omega
      have h3 : (if b = true then (1 : Nat) else 0)
            + ((bitsToNat t / 2 ^ k) * (2 ^ k * 2) + 2 * (bitsToNat t % 2 ^ k))
          = ((if b = true then (1 : Nat) else 0) + 2 * (bitsToNat t % 2 ^ k))
            + (bitsToNat t / 2 ^ k) * (2 ^ k * 2) := by ring
      have h4 : 2 * bitsToNat t
          = (bitsToNat t / 2 ^ k) * (2 ^ k * 2) + 2 * (bitsToNat t % 2 ^ k) := by
        conv_lhs => rw [← Nat.div_add_mod (bitsToNat t) (2 ^ k)]
        ring
      rw [h4, h3, Nat.add_mul_mod_self_right]
      have hr : bitsToNat t % 2 ^ k < 2 ^ k :=
        Nat.mod_lt _ (Nat.pos_pow_of_pos _ (by omega))
      apply Nat.mod_eq_of_lt
      cases b <;> simp <;> omega

theorem bitsToNat_div_drop (bs : List Bool) (n : Nat) :
    bitsToNat bs / 2 ^ n = bitsToNat (bs.drop n) := by
  induction bs generalizing n with
  | nil => simp [bitsToNat]
  | cons b t ih =>
    cases n with
    | zero => simp
    | succ k =>
      simp only [List.drop_succ_cons, ← ih k, bitsToNat]
      have h1 : ((if b = true then (1 : Nat) else 0) + 2 * bitsToNat t) / 2
          = bitsToNat t := by
        cases b with
        | false => simp
        | true => simp; omega
      rw [show (2 : Nat) ^ (k + 1) = 2 * 2 ^ k by ring,
        ← Nat.div_div_eq_div_mul, h1]

theorem lorAddDisj (a c k : Nat) (h : a < 2 ^ k) :
    a ||| c <<< k = a + c * 2 ^ k := by
  apply Nat.eq_of_testBit_eq
  intro i
  simp only [Nat.testBit_lor, Nat.testBit_shiftLeft]
  rcases Nat.lt_or_ge i k with hik | hik
  · have h1 : (a + c * 2 ^ k) % 2 ^ k = a := by
      rw [Nat.add_mul_mod_self_right, Nat.mod_eq_of_lt h]
    have h2 := Nat.testBit_mod_two_pow (a + c * 2 ^ k) k i
    rw [h1] at h2
    simp [h2, hik, Nat.not_le.mpr hik]
  · have h1 : a.testBit i = false :=
      Nat.testBit_lt_two_pow (lt_of_lt_of_le h (Nat.pow_le_pow_right (by omega) hik))
    have h2 : (a + c * 2 ^ k) / 2 ^ k = c := by
      rw [Nat.add_mul_div_right _ _ (Nat.pos_pow_of_pos k (by omega)),
        Nat.div_eq_of_lt h]
      omega
    have h3 : (a + c * 2 ^ k).testBit i = c.testBit (i - k) := by
      have h4 := Nat.testBit_shiftRight (a + c * 2 ^ k) (i := k) (j := i - k)
      rw [Nat.shiftRight_eq_div_pow, h2, Nat.add_sub_cancel' hik] at h4
      exact h4.symm
    simp [h1, h3, hik]

/-! ## C7 groundwork: writer correctness -/

theorem bwDrain_spec (fuel : Nat) : ∀ bl : List Bool, bl.length ≤ 8 * fuel + 7 →
    ∃ out pend,
      bwDrain fuel ⟨bitsToNat bl, bl.length⟩ = (out, ⟨bitsToNat pend, pend.length⟩) ∧
      bytesBits out ++ pend = bl ∧ pend.length < 8 ∧ ∀ b ∈ out, b < 256 := by
  induction fuel with
  | zero =>
    intro bl hl
    exact ⟨[], bl, rfl, by simp [bytesBits], by omega, by simp⟩
  | succ f ih =>
    intro bl hl
    by_cases h8 : 8 ≤ bl.length
    · have hbyte : bitsToNat bl &&& 0xFF = bitsToNat (bl.take 8) := by
        have : (0xFF : Nat) = 2 ^ 8 - 1 := by norm_num
        rw [this, Nat.and_pow_two_sub_one_eq_mod, bitsToNat_mod_take]
      have hdiv : bitsToNat bl >>> 8 = bitsToNat (bl.drop 8) := by
        rw [Nat.shiftRight_eq_div_pow, bitsToNat_div_drop]
      have hlen : bl.length - 8 = (bl.drop 8).length := by simp
      obtain ⟨out, pend, hrec, hcat, hp8, hlt⟩ := ih (bl.drop 8) (by simp; omega)
      refine ⟨bitsToNat (bl.take 8) :: out, pend, ?_, ?_, hp8, ?_⟩
      · simp only [bwDrain, if_pos h8, hbyte, hdiv, hlen, hrec]
      · have htake : natToBits 8 (bitsToNat (bl.take 8)) = bl.take 8 := by
          rw [natToBits_bitsToNat_pad (bl.take 8) 8 (by simp)]
          have : (bl.take 8).length = 8 := by simp; omega
          simp [this]
        simp only [bytesBits, List.flatMap_cons, List.append_assoc] at hcat ⊢
        rw [htake, hcat, List.take_append_drop]
      · intro b hb
        rcases List.mem_cons.mp hb with rfl | hb
        · calc bitsToNat (bl.take 8) < 2 ^ (bl.take 8).length := bitsToNat_lt _
            _ ≤ 2 ^ 8 := Nat.pow_le_pow_right (by omega) (by simp)
            _ = 256 := by norm_num
        · exact hlt _ hb
    · refine ⟨[], bl, ?_, by simp [bytesBits], by omega, by simp⟩
      simp only [bwDrain]
      rw [if_neg h8]

theorem writeBits_spec (pend : List Bool) (b n : Nat) (hp : pend.length < 8)
    (hb : b < 2 ^ n) :
    ∃ out pend',
      BitWriter.writeBits ⟨bitsToNat pend, pend.length⟩ b n
        = (out, ⟨bitsToNat pend', pend'.length⟩) ∧
      bytesBits out ++ pend' = pend ++ natToBits n b ∧ pend'.length < 8 ∧
      ∀ x ∈ out, x < 256 := by
  have hacc : bitsToNat pend ||| b <<< pend.length
      = bitsToNat (pend ++ natToBits n b) := by
    rw [lorAddDisj _ _ _ (bitsToNat_lt pend), bitsToNat_append,
      bitsToNat_natToBits n b hb]
    ring
  have hlen : pend.length + n = (pend ++ natToBits n b).length := by
    simp [natToBits_length]
  obtain ⟨out, pend', hdr, hcat, hlt, hout⟩ :=
    bwDrain_spec (n + 8) (pend ++ natToBits n b) (by simp [natToBits_length]; omega)
  refine ⟨out, pend', ?_, hcat, hlt, hout⟩
  simp only [BitWriter.writeBits, hacc, hlen, hdr]

theorem flushBytes_spec (pend : List Bool) (hp : pend.length < 8) :
    ∃ k, bytesBits (BitWriter.flushBytes ⟨bitsToNat pend, pend.length⟩)
      = pend ++ List.replicate k false := by
  rcases pend.eq_nil_or_concat with rfl | ⟨_, _, rfl⟩
  · exact ⟨0, by simp [BitWriter.flushBytes, BitWriter.flushW, bytesBits, bitsToNat]⟩
  · rename_i xs x
    simp only [List.concat_eq_append] at hp ⊢
    have hlen : 0 < (xs ++ [x]).length := by simp
    have hmask : bitsToNat (xs ++ [x]) &&& 0xFF = bitsToNat (xs ++ [x]) := by
      have : (0xFF : Nat) = 2 ^ 8 - 1 := by norm_num
      rw [this, Nat.and_pow_two_sub_one_eq_mod]
      exact Nat.mod_eq_of_lt
        (lt_of_lt_of_le (bitsToNat_lt _) (Nat.pow_le_pow_right (by omega) (by omega)))
    refine ⟨8 - (xs ++ [x]).length, ?_⟩
    simp only [BitWriter.flushBytes, BitWriter.flushW, if_pos hlen, bytesBits,
      List.flatMap_cons, List.flatMap_nil, List.append_nil, hmask]
    exact natToBits_bitsToNat_pad (xs ++ [x]) 8 (by omega)

/-! ## C7 groundwork: the meta Huffman channel

The claim's round trip is stated through the real encoder/decoder tables for
the 19-symbol code-length alphabet; a uniform five-bit canonical code (every
meta symbol has length 5) is used, built with the repository's own
`gen_huffman_enc` / `gen_huffman_dec`. -/

/-- The encoder table for the uniform 5-bit meta code. -/
def metaEnc : List (Nat × Nat) :=
  match gen_huffman_enc (List.replicate 19 5) with
  | .ok e => e
  | .error _ => []

/-- The decoder table for the uniform 5-bit meta code. -/
def metaDec : HuffmanDec :=
  match gen_huffman_dec (List.replicate 19 5) 19 with
  | .ok d => d
  | .error _ => HuffmanDec.new

theorem metaEnc_get : ∀ c < 19, metaEnc.get? c = some (reverse c 5, 5) := by decide

theorem metaDec_eq :
    metaDec = ⟨[0, 0, 0, 0, 0, 19],
      [0, 1, 2, 3, 4, 5, 6, 7, 8, 9, 10, 11, 12, 13, 14, 15, 16, 17, 18]⟩ := by
  decide

theorem reverse5_lt : ∀ c < 32, reverse c 5 < 32 := by decide

theorem reverse5_invol : ∀ c < 32, reverse (reverse c 5) 5 = c := by decide

/-- Width of the stored extra-bits field of a repeat meta-symbol. -/
def extraW (l : Nat) : Nat := if l = 16 then 2 else if l = 17 then 3 else 7

/-- On-the-wire bits of one meta symbol: its five (pre-reversed) code bits,
then the stored extra-bits field of a repeat. -/
def clBits (cl : CodeLength) : List Bool :=
  match cl with
  | .single c => natToBits 5 (reverse c 5)
  | .rpt l r =>
      if l = 16 then natToBits 5 (reverse 16 5) ++ natToBits 2 r
      else if l = 17 then natToBits 5 (reverse 17 5) ++ natToBits 3 r
      else if l = 18 then natToBits 5 (reverse 18 5) ++ natToBits 7 r
      else []

/-- Serialisation of a meta-symbol stream. -/
def serBits (ecls : List CodeLength) : List Bool := ecls.flatMap clBits

/-- One decoding step of the read_code_lengths fill semantics: a single
writes one length, 16 repeats the previous written length 3–6 times, 17/18
write runs of zeros. -/
def expandStep (pre : List Nat) (cl : CodeLength) : List Nat :=
  match cl with
  | .single c => pre ++ [c]
  | .rpt l r =>
      if l = 16 then pre ++ List.replicate (r + 3) (pre.getLastD 0)
      else if l = 17 then pre ++ List.replicate (r + 3) 0
      else if l = 18 then pre ++ List.replicate (r + 11) 0
      else pre

/-- Expansion of a meta-symbol stream on top of an already-expanded
prefix. -/
def expandFrom (pre : List Nat) (ecls : List CodeLength) : List Nat :=
  ecls.foldl expandStep pre

/-- Well-formedness of a meta-symbol stream relative to the already-expanded
prefix: symbols below 19, stored repeat counts within their extra-bit
fields, and 16 never first (it reads the previously written length). -/
def EclOK : List Nat → List CodeLength → Prop
  | _, [] => True
  | pre, .single c :: rest => c ≤ 15 ∧ EclOK (expandStep pre (.single c)) rest
  | pre, .rpt l r :: rest =>
      (l = 16 ∧ r < 4 ∧ pre ≠ [] ∨ l = 17 ∧ r < 8 ∨ l = 18 ∧ r < 128) ∧
      EclOK (expandStep pre (.rpt l r)) rest

theorem expandFrom_append (pre : List Nat) (xs ys : List CodeLength) :
    expandFrom pre (xs ++ ys) = expandFrom (expandFrom pre xs) ys := by
  simp [expandFrom, List.foldl_append]

theorem write_code_lengths_bits :
    ∀ (ecls : List CodeLength) (pre : List Nat) (pend : List Bool),
      EclOK pre ecls → pend.length < 8 →
      ∃ out pend',
        write_code_lengths ⟨bitsToNat pend, pend.length⟩ ecls metaEnc
          = .ok (out, ⟨bitsToNat pend', pend'.length⟩) ∧
        bytesBits out ++ pend' = pend ++ serBits ecls ∧ pend'.length < 8 ∧
        ∀ x ∈ out, x < 256 := by
  intro ecls
  induction ecls with
  | nil =>
    intro pre pend _ hp
    exact ⟨[], pend, rfl, by simp [serBits, bytesBits], hp, by simp⟩
  | cons cl rest ih =>
    intro pre pend hwf hp
    match cl with
    | .single c =>
      obtain ⟨hc, hwf'⟩ := hwf
      have hg : metaEnc.get? c = some (reverse c 5, 5) := metaEnc_get c (by omega)
      obtain ⟨o1, p1, hw1, hcat1, hlt1, hb1⟩ :=
        writeBits_spec pend (reverse c 5) 5 hp (reverse5_lt c (by omega))
      obtain ⟨o2, p2, hw2, hcat2, hlt2, hb2⟩ := ih _ p1 hwf' hlt1
      refine ⟨o1 ++ o2, p2, ?_, ?_, hlt2, ?_⟩
      · simp only [write_code_lengths, hg, hw1, hw2]
      · simp only [serBits, List.flatMap_cons, bytesBits, List.flatMap_append]
        simp only [bytesBits, serBits] at hcat1 hcat2
        rw [List.append_assoc, hcat2, ← List.append_assoc, hcat1, clBits,
          List.append_assoc]
      · intro x hx
        rcases List.mem_append.mp hx with hx | hx
        · exact hb1 x hx
        · exact hb2 x hx
    | .rpt l r =>
      obtain ⟨hor, hwf'⟩ := hwf
      obtain ⟨o1, p1, hw1, hcat1, hlt1, hb1⟩ :=
        writeBits_spec pend (reverse l 5) 5 hp
          (reverse5_lt l (by rcases hor with ⟨rfl, -⟩ | ⟨rfl, -⟩ | ⟨rfl, -⟩ <;> omega))
      have hg : metaEnc.get? l = some (reverse l 5, 5) :=
        metaEnc_get l (by rcases hor with ⟨rfl, -⟩ | ⟨rfl, -⟩ | ⟨rfl, -⟩ <;> omega)
      have hrb : r < 2 ^ (extraW l) := by
        rcases hor with ⟨rfl, hr, -⟩ | ⟨rfl, hr⟩ | ⟨rfl, hr⟩ <;>
          simp [extraW] <;> omega
      obtain ⟨o2, p2, hw2, hcat2, hlt2, hb2⟩ :=
        writeBits_spec p1 r (extraW l) hlt1 hrb
      obtain ⟨o3, p3, hw3, hcat3, hlt3, hb3⟩ := ih _ p2 hwf' hlt2
      refine ⟨o1 ++ o2 ++ o3, p3, ?_, ?_, hlt3, ?_⟩
      · rcases hor with ⟨rfl, -, -⟩ | ⟨rfl, -⟩ | ⟨rfl, -⟩ <;>
          simp only [write_code_lengths, hg, hw1] <;>
          norm_num [extraW] at hw2 ⊢ <;>
          simp only [hw2, hw3]
      · have hcl : clBits (.rpt l r) = natToBits 5 (reverse l 5) ++ natToBits (extraW l) r := by
          rcases hor with ⟨rfl, -, -⟩ | ⟨rfl, -⟩ | ⟨rfl, -⟩ <;> simp [clBits, extraW]
        simp only [serBits, List.flatMap_cons, bytesBits, List.flatMap_append,
          List.append_assoc]
        simp only [bytesBits, serBits] at hcat1 hcat2 hcat3
        rw [hcat3, ← List.append_assoc (List.flatMap o2 (natToBits 8)) p2, hcat2,
          List.append_assoc p1,
          ← List.append_assoc (List.flatMap o1 (natToBits 8)) p1, hcat1, hcl]
        simp [List.append_assoc]
      · intro x hx
        rcases List.mem_append.mp hx with hx | hx
        · rcases List.mem_append.mp hx with hx | hx
          · exact hb1 x hx
          · exact hb2 x hx
        · exact hb3 x hx

/-! ## C7 groundwork: reader correctness -/

/-- Reader synchronisation at bit position `p` of the stream `d` (the
accumulator holds exactly the pulled-but-unconsumed bits). -/
def rSyncN (r : BitReader) (d : List Nat) (p : Nat) : Prop :=
  r.data = d ∧ 8 * r.pos = p + r.bits ∧ r.pos ≤ d.length ∧
  r.acc = bitsToNat (((bytesBits d).drop p).take r.bits)

/-- Synchronisation between field reads: fewer than 8 pending bits. -/
def rSync (r : BitReader) (d : List Nat) (p : Nat) : Prop :=
  rSyncN r d p ∧ r.bits < 8

theorem bytesBits_length (d : List Nat) : (bytesBits d).length = 8 * d.length := by
  induction d with
  | nil => simp [bytesBits]
  | cons x t ih =>
    simp only [bytesBits, List.flatMap_cons, List.length_append, natToBits_length,
      List.length_cons] at *
    omega

theorem bytesBits_drop8 (d : List Nat) (i : Nat) :
    (bytesBits d).drop (8 * i) = bytesBits (d.drop i) := by
  induction i generalizing d with
  | zero => simp
  | succ k ih =>
    cases d with
    | nil => simp [bytesBits]
    | cons x t =>
      have h8 : 8 * (k + 1) = 8 + 8 * k := by ring
      have hd8 : (natToBits 8 x ++ List.flatMap t (natToBits 8)).drop (8 + 8 * k)
          = (List.flatMap t (natToBits 8)).drop (8 * k) := by
        rw [← List.drop_drop, List.drop_left' (by simp [natToBits_length])]
      simp only [bytesBits, List.flatMap_cons, h8, List.drop_succ_cons] at *
      rw [hd8]
      exact ih t

theorem listTakeAdd {α : Type} (m n : Nat) : ∀ l : List α,
    l.take (m + n) = l.take m ++ (l.drop m).take n := by
  induction m with
  | zero => simp
  | succ k ih =>
    intro l
    cases l with
    | nil => simp
    | cons x t =>
      simp only [List.drop_succ_cons, Nat.succ_add, List.take_succ_cons,
        List.cons_append, ih t]

theorem listTakeTake {α : Type} (m : Nat) : ∀ (n : Nat) (l : List α),
    (l.take n).take m = l.take (min m n) := by
  induction m with
  | zero => simp
  | succ k ih =>
    intro n l
    cases n with
    | zero => simp
    | succ j =>
      cases l with
      | nil => simp
      | cons x t =>
        simp only [List.take_succ_cons, Nat.succ_min_succ, ih j t]

theorem listDropTake {α : Type} (n : Nat) : ∀ (m : Nat) (l : List α),
    (l.take m).drop n = (l.drop n).take (m - n) := by
  induction n with
  | zero => simp
  | succ k ih =>
    intro m l
    cases m with
    | zero => simp
    | succ j =>
      cases l with
      | nil => simp
      | cons x t =>
        simp only [List.take_succ_cons, List.drop_succ_cons, Nat.succ_sub_succ, ih j t]

theorem brFill_spec (fuel : Nat) :
    ∀ (r : BitReader) (d : List Nat) (p n : Nat),
      rSyncN r d p → (∀ b ∈ d, b < 256) → p + n ≤ 8 * d.length →
      n ≤ r.bits + 8 * fuel → r.bits < n + 8 →
      ∃ r', brFill fuel n r = .ok r' ∧ rSyncN r' d p ∧ n ≤ r'.bits ∧
        r'.bits < n + 8 := by
  induction fuel with
  | zero =>
    intro r d p n hs hd hav hf hb
    refine ⟨r, ?_, hs, by omega, hb⟩
    simp only [brFill]
    rw [if_neg (by omega)]
  | succ f ih =>
    intro r d p n hs hd hav hf hb
    obtain ⟨hdata, hpos, hple, hacc⟩ := hs
    by_cases hlt : r.bits < n
    · have hposlt : r.pos < d.length := by omega
      have hget : r.data.get? r.pos = some (d.getD r.pos 0) := by
        rw [hdata, List.get?_eq_getElem?, List.getElem?_eq_getElem hposlt]
        simp [List.getD, List.get?_eq_getElem?, List.getElem?_eq_getElem hposlt]
      have hbyte : d.getD r.pos 0 < 256 := by
        have : d.getD r.pos 0 ∈ d := by
          rw [List.getD_eq_getElem d 0 hposlt]
          exact List.getElem_mem hposlt
        exact hd _ this
      have hdpd : ((bytesBits d).drop p).drop r.bits
          = natToBits 8 (d.getD r.pos 0) ++ bytesBits (d.drop (r.pos + 1)) := by
        rw [List.drop_drop, show p + r.bits = 8 * r.pos by omega, bytesBits_drop8,
          List.drop_eq_getElem_cons hposlt, ← List.getD_eq_getElem d 0 hposlt]
        simp [bytesBits]
      have htk : ((bytesBits d).drop p).take (r.bits + 8)
          = ((bytesBits d).drop p).take r.bits ++ natToBits 8 (d.getD r.pos 0) := by
        rw [listTakeAdd r.bits 8 _, hdpd, List.take_left' (natToBits_length 8 _)]
      have hlentake : (((bytesBits d).drop p).take r.bits).length = r.bits := by
        simp only [List.length_take, List.length_drop, bytesBits_length]
        omega
      have haccv : r.acc ||| d.getD r.pos 0 <<< r.bits
          = bitsToNat (((bytesBits d).drop p).take (r.bits + 8)) := by
        rw [htk, bitsToNat_append, hlentake, hacc,
          lorAddDisj _ _ _ (lt_of_lt_of_le (bitsToNat_lt _) (by rw [hlentake])),
          bitsToNat_natToBits 8 _ hbyte]
        ring
      obtain ⟨r', hfill, hs', hn', hb'⟩ := ih
        ⟨r.data, r.pos + 1, r.acc ||| (d.getD r.pos 0 <<< r.bits), r.bits + 8⟩ d p n
        ⟨hdata, by simp; omega, by simpa using hposlt, by simpa using haccv⟩
        hd hav (by simp; omega) (by simp; omega)
      refine ⟨r', ?_, hs', hn', hb'⟩
      simp only [brFill, if_pos hlt, hget]
      exact hfill
    · refine ⟨r, ?_, ⟨hdata, hpos, hple, hacc⟩, by omega, hb⟩
      simp only [brFill]
      rw [if_neg (by omega)]

theorem readBits_spec (r : BitReader) (d : List Nat) (p n : Nat) (ord : Bool)
    (hs : rSync r d p) (hd : ∀ b ∈ d, b < 256) (hn : n ≤ 16)
    (hav : p + n ≤ 8 * d.length) :
    ∃ r', r.readBits n ord
        = .ok ((if ord then bitsToNat (((bytesBits d).drop p).take n)
            else reverse (bitsToNat (((bytesBits d).drop p).take n)) n), r') ∧
      rSync r' d (p + n) := by
  obtain ⟨hsN, hb8⟩ := hs
  obtain ⟨r1, hfill, ⟨hdata, hpos, hple, hacc⟩, hge, hlt⟩ :=
    brFill_spec n r d p n hsN hd hav (by omega) (by omega)
  have hmask : r1.acc &&& (2 ^ n - 1) = bitsToNat (((bytesBits d).drop p).take n) := by
    rw [Nat.and_pow_two_sub_one_eq_mod, hacc, bitsToNat_mod_take, listTakeTake,
      Nat.min_eq_left hge]
  have hshift : r1.acc >>> n
      = bitsToNat (((bytesBits d).drop (p + n)).take (r1.bits - n)) := by
    rw [Nat.shiftRight_eq_div_pow, hacc, bitsToNat_div_drop, listDropTake,
      List.drop_drop]
  refine ⟨⟨r1.data, r1.pos, r1.acc >>> n, r1.bits - n⟩, ?_,
    ⟨⟨hdata, by show 8 * r1.pos = p + n + (r1.bits - n); omega, hple,
      by simpa using hshift⟩, by show r1.bits - n < 8; omega⟩⟩
  simp only [BitReader.readBits]
  rw [if_neg (by omega)]
  simp only [hfill, hmask]

theorem read_code_meta_spec (r : BitReader) (d : List Nat) (p s : Nat)
    (hs : rSync r d p) (hd : ∀ b ∈ d, b < 256) (hsym : s < 19)
    (hbits : ((bytesBits d).drop p).take 5 = natToBits 5 (reverse s 5))
    (hav : p + 5 ≤ 8 * d.length) :
    ∃ r', read_code r metaDec = .ok (s, r') ∧ rSync r' d (p + 5) := by
  obtain ⟨r', hread, hs'⟩ := readBits_spec r d p 5 false hs hd (by omega) hav
  rw [hbits, bitsToNat_natToBits 5 _ (reverse5_lt s (by omega)),
    reverse5_invol s (by omega)] at hread
  simp only [if_neg (by simp : ¬(false = true))] at hread
  refine ⟨r', ?_, hs'⟩
  have hsget : ([0, 1, 2, 3, 4, 5, 6, 7, 8, 9, 10, 11, 12, 13, 14, 15, 16, 17,
      18] : List Nat).get? s = some s := by
    have : ∀ t < 19, ([0, 1, 2, 3, 4, 5, 6, 7, 8, 9, 10, 11, 12, 13, 14, 15, 16,
        17, 18] : List Nat).get? t = some t := by decide
    exact this s hsym
  simp only [read_code, metaDec_eq]
  show readCodeGo (6 + 1) r ⟨[0, 0, 0, 0, 0, 19],
    [0, 1, 2, 3, 4, 5, 6, 7, 8, 9, 10, 11, 12, 13, 14, 15, 16, 17, 18]⟩ 0 0 0 0
    = .ok (s, r')
  simp only [readCodeGo]
  rw [if_pos (by simp : (0 : Nat) < ([0, 0, 0, 0, 0, 19] : List Nat).length)]
  have hskip : rcSkip (([0, 0, 0, 0, 0, 19] : List Nat).length + 1)
      [0, 0, 0, 0, 0, 19] (0 + 1) 1 = .ok (5, 5) := by rfl
  rw [hskip]
  simp only [hread]
  rw [if_pos ?hcond]
  case hcond =>
    constructor
    · simp
    · simpa using hsym
  have hsget' : ([0, 1, 2, 3, 4, 5, 6, 7, 8, 9, 10, 11, 12, 13, 14, 15, 16, 17,
      18] : List Nat)[s]? = some s := by simpa using hsget
  have hidx : 0 + ((0 <<< 5 % 65536) ||| s) - 0 <<< 5 % 65536 = s := by
    norm_num
  rw [hidx, hsget]

theorem lensSetAt (pre : List Nat) (k c : Nat) (hk : 1 ≤ k) :
    (pre ++ List.replicate k 0).set pre.length c
      = (pre ++ [c]) ++ List.replicate (k - 1) 0 := by
  rw [List.set_append_right _ _ (le_refl _), Nat.sub_self]
  match k, hk with
  | j + 1, _ =>
    simp [List.replicate_succ, List.set]

theorem setRun_spec (count : Nat) : ∀ (pre : List Nat) (k val : Nat), count ≤ k →
    setRun (pre ++ List.replicate k 0) pre.length count val
      = (pre ++ List.replicate count val) ++ List.replicate (k - count) 0 := by
  induction count with
  | zero => intro pre k val _; simp [setRun]
  | succ c ih =>
    intro pre k val hk
    simp only [setRun]
    rw [lensSetAt pre k val (by omega)]
    calc setRun ((pre ++ [val]) ++ List.replicate (k - 1) 0) (pre.length + 1) c val
        = setRun ((pre ++ [val]) ++ List.replicate (k - 1) 0)
            ((pre ++ [val]).length) c val := by simp
      _ = ((pre ++ [val]) ++ List.replicate c val) ++ List.replicate (k - 1 - c) 0 :=
          ih (pre ++ [val]) (k - 1) val (by omega)
      _ = (pre ++ List.replicate (c + 1) val) ++ List.replicate (k - (c + 1)) 0 := by
          rw [show k - 1 - c = k - (c + 1) by omega, List.replicate_succ,
            List.append_assoc]
          simp

theorem getD_append_last (pre ys : List Nat) (hne : pre ≠ []) :
    (pre ++ ys).getD (pre.length - 1) 0 = pre.getLastD 0 := by
  have hlt : pre.length - 1 < pre.length := by
    cases pre with
    | nil => exact absurd rfl hne
    | cons a t => simp
  rw [List.getD_eq_getElem _ _ (by simp; omega), List.getElem_append_left hlt,
    List.getLastD_eq_getLast? , List.getLast?_eq_getElem? ]
  simp [List.getElem?_eq_getElem hlt]

theorem expandFrom_length_ge : ∀ (ecls : List CodeLength) (pre : List Nat),
    pre.length ≤ (expandFrom pre ecls).length := by
  intro ecls
  induction ecls with
  | nil => simp [expandFrom]
  | cons cl rest ih =>
    intro pre
    have h1 : pre.length ≤ (expandStep pre cl).length := by
      cases cl with
      | single c => simp [expandStep]
      | rpt l r =>
        simp only [expandStep]
        split
        · simp
        · split
          · simp
          · split
            · simp
            · simp
    rw [show expandFrom pre (cl :: rest) = expandFrom (expandStep pre cl) rest
      from rfl]
    calc pre.length ≤ (expandStep pre cl).length := h1
      _ ≤ (expandFrom (expandStep pre cl) rest).length := ih _

theorem fieldTake (B : List Bool) (p w : Nat) (f tail : List Bool)
    (hw : f.length = w) (h : B.drop p = f ++ tail) : (B.drop p).take w = f := by
  rw [h, List.take_left' hw]

theorem fieldDrop (B : List Bool) (p w : Nat) (f tail : List Bool)
    (hw : f.length = w) (h : B.drop p = f ++ tail) : B.drop (p + w) = tail := by
  rw [← List.drop_drop, h, List.drop_left' hw]

theorem rclGo_decodes (d : List Nat) (hd : ∀ b ∈ d, b < 256) (n : Nat) :
    ∀ (ecls : List CodeLength) (fuel : Nat) (pre : List Nat) (r : BitReader)
      (p : Nat),
      EclOK pre ecls →
      (expandFrom pre ecls).length = n →
      rSync r d p →
      (∃ rest, (bytesBits d).drop p = serBits ecls ++ rest) →
      ecls.length < fuel →
      ∃ r', rclGo fuel r metaDec n pre.length
          (pre ++ List.replicate (n - pre.length) 0)
        = .ok (expandFrom pre ecls, r') := by
  intro ecls
  induction ecls with
  | nil =>
    intro fuel pre r p _ hlen _ _ hfuel
    match fuel, hfuel with
    | f + 1, _ =>
      refine ⟨r, ?_⟩
      simp only [expandFrom, List.foldl_nil] at hlen ⊢
      simp only [rclGo]
      rw [if_neg (by omega), hlen]
      simp
  | cons cl rest ih =>
    intro fuel pre r p hwf hlen hsync hser hfuel
    match fuel, hfuel with
    | f + 1, hfuel =>
    have hp8 : p ≤ 8 * d.length := by
      obtain ⟨⟨_, hpos, hple, _⟩, _⟩ := hsync
      omega
    obtain ⟨rest0, hser⟩ := hser
    have hdroplen : ((bytesBits d).drop p).length = 8 * d.length - p := by
      simp [bytesBits_length]
    have hexpand : expandFrom pre (cl :: rest) = expandFrom (expandStep pre cl) rest :=
      rfl
    have hgrow : (expandStep pre cl).length ≤ n := by
      rw [hexpand] at hlen
      calc (expandStep pre cl).length
          ≤ (expandFrom (expandStep pre cl) rest).length := expandFrom_length_ge _ _
        _ = n := hlen
    match cl with
    | .single c =>
      obtain ⟨hc, hwf'⟩ := hwf
      have hserlen : (serBits (CodeLength.single c :: rest)).length
          = 5 + (serBits rest).length := by
        simp [serBits, clBits, natToBits_length]
      have hser5 : (bytesBits d).drop p
          = natToBits 5 (reverse c 5) ++ (serBits rest ++ rest0) := by
        rw [hser]
        simp [serBits, clBits, List.append_assoc]
      have hav : p + 5 ≤ 8 * d.length := by
        have := congrArg List.length hser5
        simp only [hdroplen, List.length_append, natToBits_length] at this
        omega
      obtain ⟨r1, hrc, hs1⟩ := read_code_meta_spec r d p c hsync hd (by omega)
        (fieldTake _ _ _ _ _ (natToBits_length 5 _) hser5) hav
      have hstep : expandStep pre (.single c) = pre ++ [c] := rfl
      have hidx : pre.length < n := by
        have := hgrow
        rw [hstep] at this
        simp at this
        omega
      obtain ⟨r', hrec⟩ := ih f (pre ++ [c]) r1 (p + 5) hwf'
        (by rw [← hstep, ← hexpand]; exact hlen) hs1
        ⟨rest0, fieldDrop _ _ _ _ _ (natToBits_length 5 _) hser5⟩
        (by simp at hfuel; omega)
      refine ⟨r', ?_⟩
      simp only [rclGo]
      rw [if_pos hidx]
      simp only [hrc]
      rw [if_pos (by omega : c ≤ 15)]
      rw [lensSetAt pre (n - pre.length) c (by omega)]
      rw [show n - pre.length - 1 = n - (pre ++ [c]).length by simp; omega]
      rw [show pre.length + 1 = (pre ++ [c]).length by simp]
      rw [hexpand, hstep]
      exact hrec
    | .rpt l rp =>
      obtain ⟨hor, hwf'⟩ := hwf
      have hrpb : rp < 2 ^ extraW l := by
        rcases hor with ⟨rfl, h, -⟩ | ⟨rfl, h⟩ | ⟨rfl, h⟩ <;>
          simp [extraW] <;> omega
      have hclb : clBits (.rpt l rp)
          = natToBits 5 (reverse l 5) ++ natToBits (extraW l) rp := by
        rcases hor with ⟨rfl, -, -⟩ | ⟨rfl, -⟩ | ⟨rfl, -⟩ <;> simp [clBits, extraW]
      have hser5 : (bytesBits d).drop p
          = natToBits 5 (reverse l 5)
            ++ (natToBits (extraW l) rp ++ (serBits rest ++ rest0)) := by
        rw [hser]
        simp only [serBits, List.flatMap_cons, hclb, List.append_assoc]
      have hav : p + 5 + extraW l ≤ 8 * d.length := by
        have := congrArg List.length hser5
        simp only [hdroplen, List.length_append, natToBits_length] at this
        omega
      obtain ⟨r1, hrc, hs1⟩ := read_code_meta_spec r d p l hsync hd
        (by rcases hor with ⟨rfl, -, -⟩ | ⟨rfl, -⟩ | ⟨rfl, -⟩ <;> omega)
        (fieldTake _ _ _ _ _ (natToBits_length 5 _) hser5) (by omega)
      have hdrop5 : (bytesBits d).drop (p + 5)
          = natToBits (extraW l) rp ++ (serBits rest ++ rest0) :=
        fieldDrop _ _ _ _ _ (natToBits_length 5 _) hser5
      obtain ⟨r2, hrb2, hs2⟩ := readBits_spec r1 d (p + 5) (extraW l) true hs1 hd
        (by rcases hor with ⟨rfl, -, -⟩ | ⟨rfl, -⟩ | ⟨rfl, -⟩ <;> simp [extraW])
        (by omega)
      rw [fieldTake _ _ _ _ _ (natToBits_length (extraW l) _) hdrop5,
        bitsToNat_natToBits _ _ hrpb] at hrb2
      simp only [if_pos rfl] at hrb2
      have hdropw : (bytesBits d).drop (p + 5 + extraW l) = serBits rest ++ rest0 :=
        fieldDrop _ _ _ _ _ (natToBits_length (extraW l) _) hdrop5
      have hcount : (expandStep pre (.rpt l rp)).length
          = pre.length + (if l = 18 then rp + 11 else rp + 3) := by
        rcases hor with ⟨rfl, -, -⟩ | ⟨rfl, -⟩ | ⟨rfl, -⟩ <;> simp [expandStep]
      have hidx : pre.length < n := by
        have h3 : (if l = 18 then rp + 11 else rp + 3) ≥ 3 := by split <;> omega
        omega
      have hcn : pre.length + (if l = 18 then rp + 11 else rp + 3) ≤ n := by omega
      have hlenih : (expandFrom (expandStep pre (.rpt l rp)) rest).length = n := by
        rw [← hexpand]
        exact hlen
      obtain ⟨r', hrec⟩ := ih f (expandStep pre (.rpt l rp)) r2 (p + 5 + extraW l)
        hwf' hlenih hs2 ⟨rest0, hdropw⟩ (by simp at hfuel; omega)
      refine ⟨r', ?_⟩
      simp only [rclGo]
      rw [if_pos hidx]
      simp only [hrc]
      rcases hor with ⟨rfl, hrp4, hpre⟩ | ⟨rfl, hrp8⟩ | ⟨rfl, hrp128⟩
      · rw [if_neg (by omega : ¬ (16 : Nat) ≤ 15), if_pos rfl,
          if_neg (fun h0 => hpre (List.eq_nil_of_length_eq_zero h0))]
        simp [extraW] at hrb2
        rw [getD_append_last pre _ hpre]
        simp only [hrb2]
        rw [if_pos (by simp at hcn; omega : pre.length + (rp + 3) ≤ n)]
        rw [setRun_spec (rp + 3) pre (n - pre.length) (pre.getLastD 0)
          (by simp at hcn; omega)]
        have hstep : expandStep pre (.rpt 16 rp)
            = pre ++ List.replicate (rp + 3) (pre.getLastD 0) := by
          simp [expandStep]
        rw [show (n - pre.length - (rp + 3))
            = n - (pre ++ List.replicate (rp + 3) (pre.getLastD 0)).length by
          simp
          omega]
        rw [show pre.length + (rp + 3)
            = (pre ++ List.replicate (rp + 3) (pre.getLastD 0)).length by simp]
        rw [← hstep, hexpand]
        exact hrec
      · rw [if_neg (by omega : ¬ (17 : Nat) ≤ 15),
          if_neg (by omega : (17 : Nat) ≠ 16), if_pos rfl]
        simp [extraW] at hrb2
        simp only [hrb2]
        rw [if_pos (by simp at hcn; omega : pre.length + (rp + 3) ≤ n)]
        rw [setRun_spec (rp + 3) pre (n - pre.length) 0 (by simp at hcn; omega)]
        have hstep : expandStep pre (.rpt 17 rp)
            = pre ++ List.replicate (rp + 3) 0 := by
          simp [expandStep]
        rw [show (n - pre.length - (rp + 3))
            = n - (pre ++ List.replicate (rp + 3) (0 : Nat)).length by
          simp
          omega]
        rw [show pre.length + (rp + 3)
            = (pre ++ List.replicate (rp + 3) (0 : Nat)).length by simp]
        rw [← hstep, hexpand]
        exact hrec
      · rw [if_neg (by omega : ¬ (18 : Nat) ≤ 15),
          if_neg (by omega : (18 : Nat) ≠ 16),
          if_neg (by omega : (18 : Nat) ≠ 17), if_pos rfl]
        simp [extraW] at hrb2
        simp only [hrb2]
        rw [if_pos (by simp at hcn; omega : pre.length + (rp + 11) ≤ n)]
        rw [setRun_spec (rp + 11) pre (n - pre.length) 0 (by simp at hcn; omega)]
        have hstep : expandStep pre (.rpt 18 rp)
            = pre ++ List.replicate (rp + 11) 0 := by
          simp [expandStep]
        rw [show (n - pre.length - (rp + 11))
            = n - (pre ++ List.replicate (rp + 11) (0 : Nat)).length by
          simp
          omega]
        rw [show pre.length + (rp + 11)
            = (pre ++ List.replicate (rp + 11) (0 : Nat)).length by simp]
        rw [← hstep, hexpand]
        exact hrec

theorem EclOK_append : ∀ (xs : List CodeLength) (pre : List Nat) (ys : List CodeLength),
    EclOK pre xs → EclOK (expandFrom pre xs) ys → EclOK pre (xs ++ ys) := by
  intro xs
  induction xs with
  | nil =>
    intro pre ys _ h
    simpa [expandFrom] using h
  | cons cl rest ih =>
    intro pre ys hwf hys
    match cl with
    | .single c =>
      obtain ⟨hc, hwf'⟩ := hwf
      exact ⟨hc, ih _ ys hwf' hys⟩
    | .rpt l r =>
      obtain ⟨hor, hwf'⟩ := hwf
      exact ⟨hor, ih _ ys hwf' hys⟩

theorem expandFrom_repSingle : ∀ (k : Nat) (pre : List Nat) (c : Nat),
    expandFrom pre (List.replicate k (.single c)) = pre ++ List.replicate k c := by
  intro k
  induction k with
  | zero =>
    intro pre c
    simp [expandFrom]
  | succ j ih =>
    intro pre c
    simp only [List.replicate_succ]
    show expandFrom (expandStep pre (.single c)) (List.replicate j (.single c))
      = pre ++ List.replicate (j + 1) c
    rw [ih]
    simp [expandStep, List.replicate_succ]

theorem EclOK_repSingle : ∀ (k : Nat) (pre : List Nat) (c : Nat), c ≤ 15 →
    EclOK pre (List.replicate k (.single c)) := by
  intro k
  induction k with
  | zero =>
    intro pre c _
    trivial
  | succ j ih =>
    intro pre c hc
    simp only [List.replicate_succ]
    exact ⟨hc, ih _ c hc⟩

/-- The meta symbols one eclDump call appends to its accumulator. -/
def dumpTail (i rpt prev : Nat) : List CodeLength :=
  if rpt = 0 then (if 0 < i then [.single prev] else [])
  else if rpt ≤ 2 then
    List.replicate (if prev ≠ 0 then rpt + 1 else rpt) (.single prev)
  else if rpt ≤ 10 then
    (if prev ≠ 0 then [.single prev] else [])
      ++ [.rpt (if prev = 0 then 17 else 16) (rpt - 3)]
  else if rpt ≤ 138 then [.rpt 18 (rpt - 11)]
  else []

theorem eclDump_eq (i rpt prev : Nat) (v : List CodeLength) :
    eclDump i rpt prev v = v ++ dumpTail i rpt prev := by
  unfold eclDump dumpTail
  split_ifs <;> simp

theorem dumpTail_spec (i rpt prev : Nat) (pre : List Nat) (hprev : prev ≤ 15)
    (hcase : prev = 0 ∧ (i = 0 → rpt ≤ 1) ∧ (0 < i → 1 ≤ rpt) ∧ rpt ≤ 138
      ∨ prev ≠ 0 ∧ 0 < i ∧ rpt ≤ 6) :
    EclOK pre (dumpTail i rpt prev) ∧
    expandFrom pre (dumpTail i rpt prev)
      = pre ++ List.replicate (if prev = 0 then rpt else rpt + 1) prev := by
  rcases hcase with ⟨rfl, hi0, hi1, hb⟩ | ⟨hne, hi, hb⟩
  · by_cases h0 : rpt = 0
    · have hni : ¬ 0 < i := fun h => by have := hi1 h; omega
      subst h0
      refine ⟨?_, ?_⟩
      · simp only [dumpTail, if_pos rfl, if_neg hni]
        trivial
      · simp [dumpTail, hni, expandFrom]
    · by_cases h2 : rpt ≤ 2
      · simp only [dumpTail, if_neg h0, if_pos h2, ne_eq, not_true_eq_false,
          ite_false]
        refine ⟨EclOK_repSingle _ _ _ (by omega), ?_⟩
        rw [expandFrom_repSingle]
        simp
      · by_cases h10 : rpt ≤ 10
        · simp only [dumpTail, if_neg h0, if_neg h2, if_pos h10, ne_eq,
            not_true_eq_false, ite_false, if_pos rfl, List.nil_append]
          refine ⟨⟨Or.inr (Or.inl ⟨rfl, by omega⟩), trivial⟩, ?_⟩
          show expandStep pre (.rpt 17 (rpt - 3)) = _
          simp [expandStep, show rpt - 3 + 3 = rpt from by omega]
        · simp only [dumpTail, if_neg h0, if_neg h2, if_neg h10, if_pos hb]
          refine ⟨⟨Or.inr (Or.inr ⟨rfl, by omega⟩), trivial⟩, ?_⟩
          show expandStep pre (.rpt 18 (rpt - 11)) = _
          simp [expandStep, show rpt - 11 + 11 = rpt from by omega]
  · by_cases h0 : rpt = 0
    · subst h0
      refine ⟨?_, ?_⟩
      · simp only [dumpTail, if_pos rfl, if_pos hi]
        exact ⟨hprev, trivial⟩
      · simp only [dumpTail, if_pos rfl, if_pos hi, if_neg hne]
        show expandStep pre (.single prev) = _
        simp [expandStep, List.replicate_succ]
    · by_cases h2 : rpt ≤ 2
      · simp only [dumpTail, if_neg h0, if_pos h2, ne_eq, hne, not_false_iff,
          ite_true, if_neg hne]
        refine ⟨EclOK_repSingle _ _ _ hprev, ?_⟩
        rw [expandFrom_repSingle]
        simp
      · simp only [dumpTail, if_neg h0, if_neg h2, if_pos (by omega : rpt ≤ 10),
          ne_eq, hne, not_false_iff, ite_true, if_neg hne, List.singleton_append]
        refine ⟨⟨hprev, Or.inl ⟨rfl, by omega, ?_⟩, trivial⟩, ?_⟩
        · show pre ++ [prev] ≠ []
          simp
        · show expandStep (expandStep pre (.single prev)) (.rpt 16 (rpt - 3)) = _
          simp only [expandStep, if_pos rfl]
          rw [show rpt - 3 + 3 = rpt from by omega]
          rw [show (pre ++ [prev]).getLastD 0 = prev from by simp]
          simp [List.replicate_succ, List.append_assoc]

theorem eclGo_cons (i rpt prev cur : Nat) (v : List CodeLength) (rest : List Nat) :
    eclGo i rpt prev v (cur :: rest)
      = if (cur = prev ∧ (rpt < 6 ∨ cur = 0) ∧ rpt < 138) ∧ ¬rest.isEmpty
        then eclGo (i + 1) (rpt + 1) prev v rest
        else
          eclGo (i + 1) (if cur ≠ 0 then 0 else 1) cur
            (if ¬(cur = prev ∧ (rpt < 6 ∨ cur = 0) ∧ rpt < 138) ∧ rest.isEmpty
              then eclDump i
                  (if cur = prev ∧ (rpt < 6 ∨ cur = 0) ∧ rpt < 138 then rpt + 1 else rpt)
                  prev v ++ [.single cur]
              else eclDump i
                  (if cur = prev ∧ (rpt < 6 ∨ cur = 0) ∧ rpt < 138 then rpt + 1 else rpt)
                  prev v)
            rest := rfl

theorem eclGo_spec : ∀ (input : List Nat), input ≠ [] →
    ∀ (i rpt prev : Nat) (v : List CodeLength) (done : List Nat),
    (∀ c ∈ input, c ≤ 15) → prev ≤ 15 →
    EclOK [] v →
    expandFrom [] v
        ++ List.replicate (if i = 0 then 0 else if prev = 0 then rpt else rpt + 1) prev
      = done →
    (i = 0 → rpt = 0 ∧ prev = 0) →
    (prev = 0 → 0 < i → 1 ≤ rpt) →
    (prev = 0 → rpt ≤ 138) →
    (prev ≠ 0 → 0 < i ∧ rpt ≤ 6) →
    EclOK [] (eclGo i rpt prev v input) ∧
    expandFrom [] (eclGo i rpt prev v input) = done ++ input := by
  intro input
  induction input with
  | nil =>
    intro h
    exact absurd rfl h
  | cons cur rest ih =>
    intro _ i rpt prev v done hvals hprev hwf hdone h0 hz hb0 hbp
    have hcur : cur ≤ 15 := hvals cur (by simp)
    have hvals' : ∀ c ∈ rest, c ≤ 15 := fun c hc => hvals c (by simp [hc])
    by_cases hm : cur = prev ∧ (rpt < 6 ∨ cur = 0) ∧ rpt < 138
    · obtain ⟨hmc, hmor, hm138⟩ := hm
      subst hmc
      by_cases hre : rest = []
      · -- matched run ends at the last element: dump with rpt + 1 and stop
        subst hre
        rw [eclGo_cons,
          if_neg (show ¬((cur = cur ∧ (rpt < 6 ∨ cur = 0) ∧ rpt < 138)
              ∧ ¬List.isEmpty ([] : List Nat)) from fun h => h.2 (by simp)),
          if_neg (show ¬(¬(cur = cur ∧ (rpt < 6 ∨ cur = 0) ∧ rpt < 138)
              ∧ List.isEmpty ([] : List Nat)) from fun h => h.1 ⟨rfl, hmor, hm138⟩),
          if_pos (show cur = cur ∧ (rpt < 6 ∨ cur = 0) ∧ rpt < 138 from
            ⟨rfl, hmor, hm138⟩),
          eclDump_eq]
        show EclOK [] (v ++ dumpTail i (rpt + 1) cur) ∧
          expandFrom [] (v ++ dumpTail i (rpt + 1) cur) = done ++ [cur]
        have hcase : cur = 0 ∧ (i = 0 → rpt + 1 ≤ 1) ∧ (0 < i → 1 ≤ rpt + 1)
              ∧ rpt + 1 ≤ 138
            ∨ cur ≠ 0 ∧ 0 < i ∧ rpt + 1 ≤ 6 := by
          by_cases hc0 : cur = 0
          · exact Or.inl ⟨hc0, fun hi => by omega, fun _ => by omega, by omega⟩
          · rcases hmor with h6 | h6
            · exact Or.inr ⟨hc0, (hbp hc0).1, by omega⟩
            · exact absurd h6 hc0
        obtain ⟨hdok, hdexp⟩ := dumpTail_spec i (rpt + 1) cur (expandFrom [] v)
          hprev hcase
        refine ⟨EclOK_append v [] _ hwf hdok, ?_⟩
        rw [expandFrom_append, hdexp, ← hdone]
        have hcnt : (if cur = 0 then rpt + 1 else rpt + 1 + 1)
            = (if i = 0 then 0 else if cur = 0 then rpt else rpt + 1) + 1 := by
          by_cases hi : i = 0
          · obtain ⟨h1, h2⟩ := h0 hi
            simp [hi, h1, h2]
          · by_cases hc0 : cur = 0 <;> simp [hi, hc0]
        rw [hcnt, List.replicate_succ', ← List.append_assoc]
      · -- matched and more input: extend the run
        rw [eclGo_cons,
          if_pos ⟨⟨rfl, hmor, hm138⟩, by simp [List.isEmpty_iff, hre]⟩]
        have hcnt : (if i + 1 = 0 then 0 else if cur = 0 then rpt + 1 else rpt + 1 + 1)
            = (if i = 0 then 0 else if cur = 0 then rpt else rpt + 1) + 1 := by
          by_cases hi : i = 0
          · obtain ⟨h1, h2⟩ := h0 hi
            simp [hi, h1, h2]
          · by_cases hc0 : cur = 0 <;> simp [hi, hc0]
        obtain ⟨hok, hexp⟩ := ih hre (i + 1) (rpt + 1) cur v (done ++ [cur])
          hvals' hprev hwf
          (by rw [hcnt, List.replicate_succ', ← List.append_assoc, hdone])
          (fun h => absurd h (by omega))
          (fun _ _ => by omega)
          (fun _ => by omega)
          (fun hc0 => ⟨by omega, by
            rcases hmor with h6 | h6
            · omega
            · exact absurd h6 hc0⟩)
        exact ⟨hok, by simpa using hexp⟩
    · -- the run breaks at cur: dump the pending run with count rpt
      have hcase : prev = 0 ∧ (i = 0 → rpt ≤ 1) ∧ (0 < i → 1 ≤ rpt) ∧ rpt ≤ 138
          ∨ prev ≠ 0 ∧ 0 < i ∧ rpt ≤ 6 := by
        by_cases hp0 : prev = 0
        · exact Or.inl ⟨hp0, fun hi => by have := (h0 hi).1; omega,
            hz hp0, hb0 hp0⟩
        · exact Or.inr ⟨hp0, hbp hp0⟩
      obtain ⟨hdok, hdexp⟩ := dumpTail_spec i rpt prev (expandFrom [] v) hprev hcase
      have hR : (if prev = 0 then rpt else rpt + 1)
          = (if i = 0 then 0 else if prev = 0 then rpt else rpt + 1) := by
        by_cases hi : i = 0
        · obtain ⟨h1, h2⟩ := h0 hi
          simp [hi, h1, h2]
        · simp [hi]
      have hvdone : expandFrom [] (v ++ dumpTail i rpt prev) = done := by
        rw [expandFrom_append, hdexp, hR, hdone]
      have hvok : EclOK [] (v ++ dumpTail i rpt prev) := EclOK_append v [] _ hwf hdok
      by_cases hre : rest = []
      · -- last element, unmatched: dump, then emit cur itself
        subst hre
        rw [eclGo_cons,
          if_neg (show ¬((cur = prev ∧ (rpt < 6 ∨ cur = 0) ∧ rpt < 138)
              ∧ ¬List.isEmpty ([] : List Nat)) from fun h => hm h.1),
          if_pos (show ¬(cur = prev ∧ (rpt < 6 ∨ cur = 0) ∧ rpt < 138)
              ∧ List.isEmpty ([] : List Nat) from ⟨hm, by simp⟩),
          if_neg hm, eclDump_eq]
        show EclOK [] ((v ++ dumpTail i rpt prev) ++ [.single cur]) ∧
          expandFrom [] ((v ++ dumpTail i rpt prev) ++ [.single cur]) = done ++ [cur]
        refine ⟨EclOK_append _ [] _ hvok ⟨hcur, trivial⟩, ?_⟩
        rw [expandFrom_append, hvdone]
        rfl
      · -- unmatched with more input: dump and start a fresh run at cur
        rw [eclGo_cons,
          if_neg (show ¬((cur = prev ∧ (rpt < 6 ∨ cur = 0) ∧ rpt < 138)
              ∧ ¬List.isEmpty rest) from fun h => hm h.1),
          if_neg (show ¬(¬(cur = prev ∧ (rpt < 6 ∨ cur = 0) ∧ rpt < 138)
              ∧ List.isEmpty rest) from
            fun h => hre (by simpa [List.isEmpty_iff] using h.2)),
          if_neg hm, eclDump_eq]
        have hone : (if i + 1 = 0 then 0
            else if cur = 0 then (if cur ≠ 0 then 0 else 1)
            else (if cur ≠ 0 then 0 else 1) + 1) = 1 := by
          by_cases hc0 : cur = 0 <;> simp [hc0]
        obtain ⟨hok, hexp⟩ := ih hre (i + 1) (if cur ≠ 0 then 0 else 1) cur
          (v ++ dumpTail i rpt prev) (done ++ [cur]) hvals' hcur hvok
          (by rw [hone, hvdone]; simp)
          (fun h => absurd h (by omega))
          (fun hc0 _ => by simp [hc0])
          (fun hc0 => by simp [hc0])
          (fun hc0 => ⟨by omega, by simp [hc0]⟩)
        exact ⟨hok, by simpa using hexp⟩

theorem encode_code_lengths_spec (clen : List Nat) (hv : ∀ c ∈ clen, c ≤ 15) :
    EclOK [] (encode_code_lengths clen) ∧
    expandFrom [] (encode_code_lengths clen) = clen := by
  by_cases hne : clen = []
  · subst hne
    exact ⟨trivial, rfl⟩
  · unfold encode_code_lengths
    rw [if_neg (by simpa [List.isEmpty_iff] using hne)]
    have h := eclGo_spec clen hne 0 0 0 [] [] hv (by omega) trivial
      (by simp [expandFrom]) (fun _ => ⟨rfl, rfl⟩)
      (fun _ hi => absurd hi (by omega)) (fun _ => by omega)
      (fun hp => absurd rfl hp)
    simpa using h

theorem flushBytes_lt (w : BitWriter) : ∀ b ∈ w.flushBytes, b < 256 := by
  intro b hb
  by_cases hbits : 0 < w.bits
  · simp only [BitWriter.flushBytes, BitWriter.flushW, if_pos hbits,
      List.mem_singleton] at hb
    subst hb
    have : w.acc &&& 0xFF ≤ 0xFF := Nat.and_le_right
    omega
  · simp [BitWriter.flushBytes, BitWriter.flushW, if_neg hbits] at hb

theorem EclOK_length_le : ∀ (ecls : List CodeLength) (pre : List Nat),
    EclOK pre ecls → pre.length + ecls.length ≤ (expandFrom pre ecls).length := by
  intro ecls
  induction ecls with
  | nil =>
    intro pre _
    simp [expandFrom]
  | cons cl rest ih =>
    intro pre hwf
    match cl with
    | .single c =>
      obtain ⟨-, hwf'⟩ := hwf
      have hrec := ih (expandStep pre (.single c)) hwf'
      have hstep : (expandStep pre (.single c)).length = pre.length + 1 := by
        simp [expandStep]
      show pre.length + (rest.length + 1)
        ≤ (expandFrom (expandStep pre (.single c)) rest).length
      omega
    | .rpt l r =>
      obtain ⟨hor, hwf'⟩ := hwf
      have hrec := ih (expandStep pre (.rpt l r)) hwf'
      have hstep : pre.length + 1 ≤ (expandStep pre (.rpt l r)).length := by
        rcases hor with ⟨rfl, -, -⟩ | ⟨rfl, -⟩ | ⟨rfl, -⟩ <;> simp [expandStep]
      show pre.length + (rest.length + 1)
        ≤ (expandFrom (expandStep pre (.rpt l r)) rest).length
      omega

theorem rSync_new (d : List Nat) : rSync (BitReader.new d) d 0 :=
  ⟨⟨rfl, rfl, Nat.zero_le _, rfl⟩, by show (0 : Nat) < 8; omega⟩

theorem bytesBits_append (a b : List Nat) :
    bytesBits (a ++ b) = bytesBits a ++ bytesBits b := by
  simp [bytesBits]

/-- The bytes a deflate header would carry for one meta-encoded length table:
encode_code_lengths fed through write_code_lengths on a fresh writer, with the
final partial byte flushed (as write_code_table's caller flushes the stream). -/
def c7Serialize (clen : List Nat) : List Nat :=
  match write_code_lengths BitWriter.new (encode_code_lengths clen) metaEnc with
  | .ok (bs, w) => bs ++ w.flushBytes
  | .error _ => []

/-- C7: for any length array of size up to 65535 with values in [0,15],
meta-encoding with encode_code_lengths, serialising through
write_code_lengths, and decoding with read_code_lengths (over the uniform
5-bit meta Huffman code built by gen_huffman_enc/gen_huffman_dec) reproduces
the original array. -/
theorem c7_code_length_roundtrip (clen : List Nat) (_hlen : clen.length ≤ 65535)
    (hv : ∀ c ∈ clen, c ≤ 15) :
    ∃ r', read_code_lengths (BitReader.new (c7Serialize clen)) metaDec
        clen.length = .ok (clen, r') := by
  obtain ⟨hok, hexp⟩ := encode_code_lengths_spec clen hv
  obtain ⟨out, pend', hw, hcat, hlt, hb⟩ :=
    write_code_lengths_bits (encode_code_lengths clen) [] [] hok (by simp)
  have hw0 : write_code_lengths BitWriter.new (encode_code_lengths clen) metaEnc
      = .ok (out, ⟨bitsToNat pend', pend'.length⟩) := hw
  have hser : c7Serialize clen
      = out ++ BitWriter.flushBytes ⟨bitsToNat pend', pend'.length⟩ := by
    unfold c7Serialize
    rw [hw0]
  obtain ⟨k, hflush⟩ := flushBytes_spec pend' hlt
  simp only [List.nil_append] at hcat
  have hbits : bytesBits (c7Serialize clen)
      = serBits (encode_code_lengths clen) ++ List.replicate k false := by
    rw [hser, bytesBits_append, hflush, ← List.append_assoc, hcat]
  have hfuel : (encode_code_lengths clen).length < clen.length + 1 := by
    have h1 := EclOK_length_le (encode_code_lengths clen) [] hok
    rw [hexp] at h1
    simp only [List.length_nil, Nat.zero_add] at h1
    omega
  have hd256 : ∀ b ∈ c7Serialize clen, b < 256 := by
    intro b hbmem
    rw [hser] at hbmem
    rcases List.mem_append.mp hbmem with h | h
    · exact hb b h
    · exact flushBytes_lt _ b h
  obtain ⟨r', hr⟩ := rclGo_decodes (c7Serialize clen) hd256 clen.length
    (encode_code_lengths clen) (clen.length + 1) []
    (BitReader.new (c7Serialize clen)) 0
    hok (by rw [hexp]) (rSync_new _)
    ⟨List.replicate k false, by simpa using hbits⟩ hfuel
  rw [hexp] at hr
  exact ⟨r', hr⟩

/-- Concrete instance of the C7 round-trip: a 24-entry length table with an
11-zero run, a repeated nonzero length, and isolated lengths. -/
theorem c7_code_length_roundtrip_witness :
    ∃ r', read_code_lengths
        (BitReader.new (c7Serialize
          [0, 0, 0, 0, 0, 0, 0, 0, 0, 0, 0, 0, 0, 5, 5, 5, 5, 5, 5, 7, 0, 0, 0, 4]))
        metaDec 24
      = .ok ([0, 0, 0, 0, 0, 0, 0, 0, 0, 0, 0, 0, 0, 5, 5, 5, 5, 5, 5, 7, 0, 0, 0, 4], r') :=
  c7_code_length_roundtrip
    [0, 0, 0, 0, 0, 0, 0, 0, 0, 0, 0, 0, 0, 5, 5, 5, 5, 5, 5, 7, 0, 0, 0, 4]
    (by decide) (by decide)

/-! ## Claim theorems (concrete evaluations) -/

set_option maxRecDepth 100000
set_option maxHeartbeats 4000000

/-- C1: the round-trip property fails.  On the 11-byte input
`[0,1,2,3,4,5,6,7,0,1,2]`, deflate emits `Copy{len:3, dist:8}` at position 8
and then also re-emits positions 9 and 10 as literals, so inflating the
compressed stream yields 13 bytes `[0,1,2,3,4,5,6,7,0,1,2,1,2]`, not the
original 11. -/
theorem c1_roundtrip_fails_on_repeat :
    (deflate [0, 1, 2, 3, 4, 5, 6, 7, 0, 1, 2]).bind (fun r => inflateRes r.2)
        = .ok ((13, 8303011), [0, 1, 2, 3, 4, 5, 6, 7, 0, 1, 2, 1, 2]) ∧
      [0, 1, 2, 3, 4, 5, 6, 7, 0, 1, 2, 1, 2] ≠ [0, 1, 2, 3, 4, 5, 6, 7, 0, 1, 2] := by
  decide

/-- C2: the encoder's length-to-code mapping disagrees with the claim (and
with the repository's own decoder).  `length_code 11 = (266, 1)` although the
claimed table sends length 11 to code 265, and the decoder `read_length`
turns symbol 266 (with a zero extra bit) into length 13, not 11; and
`length_code 258 = (285, 6)` although the claim gives code 285 zero extra
bits. -/
theorem c2_length_code_mismatch :
    length_code 11 = .ok (266, 1) ∧
      (read_length 266 (BitReader.new [0x00])).map Prod.fst = .ok 13 ∧
      length_code 258 = .ok (285, 6) := by
  decide

/-- C3: the encoder's distance-to-code mapping disagrees with the claim (and
with the repository's own decoder).  `dist_code 13 = (5, 3)` although the
claimed table (`extra_bits = floor(log2(dist-1)) - 1`, mirroring the
decoder) sends distance 13 to code 7 with 2 extra bits — indeed the decoder
`read_distance` turns code 5 (with a zero extra bit) into distance 7, not
13; and `dist_code 5 = (4, 0)` although the decoder reads one extra bit for
code 4 (decoding it, with a zero bit, as distance 5 only by accident of the
base, while the encoder's zero extra-bit count desynchronises the stream). -/
theorem c3_dist_code_mismatch :
    dist_code 13 = .ok (5, 3) ∧
      (read_distance 5 (BitReader.new [0x00])).map Prod.fst = .ok 7 ∧
      dist_code 5 = .ok (4, 0) ∧
      (read_distance 4 (BitReader.new [0x00])).map Prod.fst = .ok 5 := by
  decide

/-- C4: stored (BTYPE=0) blocks are not implemented.  On the stream
`[0x01, 0x00, 0x00, 0xFF, 0xFF]` (BFINAL=1, BTYPE=0, LEN=0, NLEN=0xFFFF)
the claim requires realignment to a byte boundary, the LEN/NLEN complement
check, and an empty output; the code instead never reads LEN/NLEN — it
consumes bit-reversed 8-bit "literals" until the stream runs out and
returns an end-of-file error. -/
theorem c4_store_block_unimplemented :
    inflateRes [0x01, 0x00, 0x00, 0xFF, 0xFF] = .error .eofErr := by
  decide

/-- C5: inflate stops after the first block and ignores BFINAL.  The stream
`[0x02, 0xCC, 0x11, 0x00]` holds two fixed-Huffman blocks: an empty one with
BFINAL=0 followed by a final one containing the literal 65; a conforming
decoder (and the claim) produce `[65]`, but the code returns an empty output
after the first END_OF_BLOCK. -/
theorem c5_second_block_ignored :
    inflateRes [0x02, 0xCC, 0x11, 0x00] = .ok ((0, 0), []) := by
  decide

/-- C6: inflate panics (a release-mode `assert!`) instead of returning an
error when a copy's distance exceeds the bytes produced so far.  The stream
`[0x03, 0x02]` is a fixed block whose first symbol is length code 257
followed by distance code 0 (distance 1) with no output yet, and inflate
aborts on `assert!(dist <= window.len())`. -/
theorem c6_bad_distance_panics :
    inflateRes [0x03, 0x02] = .error (.assertFail "dist <= window.len()") := by
  decide

/-- C8: assign_lengths has no 15-bit cap.  On the 17-symbol Fibonacci
frequency vector the Huffman tree is a 16-deep caterpillar, so the two
rarest symbols get code length 16 > MAX_NUM_BITS = 15. -/
theorem c8_assign_lengths_exceeds_15 :
    assign_lengths [1, 1, 2, 3, 5, 8, 13, 21, 34, 55, 89, 144, 233, 377, 610, 987, 1597]
        = .ok [16, 16, 15, 14, 13, 12, 11, 10, 9, 8, 7, 6, 5, 4, 3, 2, 1] ∧
      ¬ (16 : Nat) ≤ MAX_NUM_BITS := by
  decide

/-- C9 counterexample: inflate does not treat an empty input stream as a
no-op — it fails with an end-of-file error on the very first header bit. -/
theorem c9_inflate_empty_errors :
    inflateRes [] = .error .eofErr := by
  decide

/-- C9 amended: on empty input deflate writes zero bytes and returns
`(0, 0)`, while inflate of an empty stream returns an end-of-file error
(rather than succeeding with empty output). -/
theorem c9_empty_input_behaviour :
    deflate [] = .ok ((0, 0), []) ∧ inflateRes [] = .error .eofErr := by
  decide

/-! ## GZIP parse (src/gzip.rs lines 85–211)

The file is a byte list read through a position; `trans_bytes!` (a macro not
present under src/) is modelled from the spec (§6: all multi-byte integers in
the GZIP envelope are little-endian).  `assert_eq!` is the release-mode
panic, modelled as `assertFail`; the `debug!("\n{}", str::from_utf8(&out)
.unwrap())` argument is only evaluated when a logger enables debug output and
is not modelled. -/

/-- A reader positioned mid-stream (gzip runs inflate at the payload
offset). -/
def BitReader.newAt (d : List Nat) (p : Nat) : BitReader := ⟨d, p, 0, 0⟩

/-- Read one byte (`read_exact` of a 1-byte buffer). -/
def gzReadByte (d : List Nat) (pos : Nat) : Except RErr (Nat × Nat) :=
  match d.get? pos with
  | some b => .ok (b, pos + 1)
  | none => .error .eofErr

/-- Read exactly `k` bytes (`read_exact`), failing on a short read. -/
def gzReadBytes (k : Nat) (d : List Nat) (pos : Nat) :
    Except RErr (List Nat × Nat) :=
  if pos + k ≤ d.length then .ok (((d.drop pos).take k), pos + k)
  else .error .eofErr

/-- Modelled from the spec: the `trans_bytes!` macro (absent from src/) packs
bytes little-endian (§6). -/
def leVal (bs : List Nat) : Nat := bs.foldr (fun b acc => b + 256 * acc) 0

/-- BufRead::read_until(0): consume up to and including the first NUL, or the
rest of the stream at EOF. -/
def gzReadUntil0 (d : List Nat) (pos : Nat) : List Nat × Nat :=
  match (d.drop pos).findIdx? (fun b => b = 0) with
  | some i => ((d.drop pos).take (i + 1), pos + i + 1)
  | none => (d.drop pos, d.length)

/-- Continuation-byte test of the UTF-8 validator. -/
def utf8Cont (b : Nat) : Bool := 0x80 ≤ b ∧ b ≤ 0xBF

/-- UTF-8 validity (the success condition of `String::from_utf8`), following
the byte-range table of the Rust core validator. -/
def utf8Ok (fuel : Nat) (bs : List Nat) : Bool :=
  match fuel, bs with
  | _, [] => true
  | 0, _ => false
  | f + 1, b :: rest =>
    if b ≤ 0x7F then utf8Ok f rest
    else if 0xC2 ≤ b ∧ b ≤ 0xDF then
      match rest with
      | c1 :: r => utf8Cont c1 && utf8Ok f r
      | _ => false
    else if 0xE0 ≤ b ∧ b ≤ 0xEF then
      match rest with
      | c1 :: c2 :: r =>
        (if b = 0xE0 then decide (0xA0 ≤ c1 ∧ c1 ≤ 0xBF)
         else if b = 0xED then decide (0x80 ≤ c1 ∧ c1 ≤ 0x9F)
         else utf8Cont c1) && utf8Cont c2 && utf8Ok f r
      | _ => false
    else if 0xF0 ≤ b ∧ b ≤ 0xF4 then
      match rest with
      | c1 :: c2 :: c3 :: r =>
        (if b = 0xF0 then decide (0x90 ≤ c1 ∧ c1 ≤ 0xBF)
         else if b = 0xF4 then decide (0x80 ≤ c1 ∧ c1 ≤ 0x8F)
         else utf8Cont c1) && utf8Cont c2 && utf8Cont c3 && utf8Ok f r
      | _ => false
    else false

/-- `String::from_utf8(v).unwrap()`: the bytes on success, a panic
otherwise. -/
def fromUtf8Unwrap (v : List Nat) : Except RErr (List Nat) :=
  if utf8Ok (v.length + 1) v then .ok v
  else .error (.assertFail "called Result::unwrap on an Err value")

/-- ASCII decimal digits of a number (for the `format!(".{}", members.len())`
suffix). -/
def natDecimalGo (fuel n : Nat) (acc : List Nat) : List Nat :=
  match fuel with
  | 0 => acc
  | f + 1 =>
    if n < 10 then (48 + n) :: acc
    else natDecimalGo f (n / 10) ((48 + n % 10) :: acc)

/-- ASCII decimal rendering of a number. -/
def natDecimal (n : Nat) : List Nat := natDecimalGo (n + 1) n []

/-- The FLG bit flags of a GZIP member header. -/
structure Flags : Type where
  ftext : Bool
  fhcrc : Bool
  fextra : Bool
  fname : Bool
  fcomment : Bool
  deriving Repr, DecidableEq

/-- The GzipMember record of src/gzip.rs (strings kept as byte lists). -/
structure GzipMember : Type where
  flg : Flags
  xfl : Nat
  mtime : Nat
  os : Nat
  crc16 : Nat
  offset : Nat
  crc32 : Nat
  isize : Nat
  file_name : List Nat
  file_comment : List Nat
  deriving Repr, DecidableEq

/-- Header part of one member of gzip parse (src/gzip.rs lines 97–175):
magic, method, flags, MTIME, XFL, OS, then the optional FEXTRA / FNAME /
FCOMMENT / FHCRC fields.  `fnameArg` is the path argument of `parse` and
`memCount` the number of members parsed so far (both feed the default
file-name computation). -/
def parseGzHeader (fnameArg : List Nat) (memCount : Nat) (d : List Nat)
    (pos : Nat) : Except RErr ((Flags × Nat × Nat × Nat × Nat × List Nat × List Nat) × Nat) :=
  match gzReadByte d pos with
  | .error e => .error e
  | .ok (b1, p1) =>
    if b1 ≠ 0x1F then .error (.assertFail "byte[0] == 0x1F") else
    match gzReadByte d p1 with
    | .error e => .error e
    | .ok (b2, p2) =>
      if b2 ≠ 0x8B then .error (.assertFail "byte[0] == 0x8B") else
      match gzReadByte d p2 with
      | .error e => .error e
      | .ok (b3, p3) =>
        if b3 ≠ 8 then .error (.assertFail "byte[0] == 8") else
        match gzReadByte d p3 with
        | .error e => .error e
        | .ok (fb, p4) =>
          let flg : Flags :=
            ⟨fb &&& 1 = 1, fb &&& 2 = 2, fb &&& 4 = 4, fb &&& 8 = 8,
             fb &&& 16 = 16⟩
          match gzReadBytes 4 d p4 with
          | .error e => .error e
          | .ok (mtimeB, p5) =>
            let mtime := leVal mtimeB
            match gzReadByte d p5 with
            | .error e => .error e
            | .ok (xfl, p6) =>
              if ¬(xfl = 0 ∨ xfl = 2 ∨ xfl = 4) then .error (.other "Bad XFL") else
              match gzReadByte d p6 with
              | .error e => .error e
              | .ok (os, p7) =>
                if ¬(os ≤ 13 ∨ os = 255) then .error (.other "Bad XFL") else
                match (if flg.fextra then
                    match gzReadBytes 2 d p7 with
                    | .error e => .error e
                    | .ok (xlenB, p8) =>
                      (gzReadBytes (leVal xlenB) d p8).map (fun r => r.2)
                  else .ok p7 : Except RErr Nat) with
                | .error e => .error e
                | .ok p9 =>
                  match (if flg.fname then
                      let (v, p10) := gzReadUntil0 d p9
                      (fromUtf8Unwrap v.dropLast).map (fun nm => (nm, p10))
                    else
                      let tmp := if fnameArg.length ≥ 3 ∧
                          fnameArg.drop (fnameArg.length - 3) = [46, 103, 122]
                        then fnameArg.take (fnameArg.length - 3) else fnameArg
                      let tmp := if memCount ≠ 0 then tmp ++ [46] ++ natDecimal memCount
                        else tmp
                      .ok (tmp, p9) : Except RErr (List Nat × Nat)) with
                  | .error e => .error e
                  | .ok (file_name, p11) =>
                    match (if flg.fcomment then
                        let (v, p12) := gzReadUntil0 d p11
                        (fromUtf8Unwrap v.dropLast).map (fun cm => (cm, p12))
                      else .ok ([], p11) : Except RErr (List Nat × Nat)) with
                    | .error e => .error e
                    | .ok (file_comment, p13) =>
                      match (if flg.fhcrc then
                          (gzReadBytes 2 d p13).map (fun r => (leVal r.1, r.2))
                        else .ok (0, p13) : Except RErr (Nat × Nat)) with
                      | .error e => .error e
                      | .ok (crc16, p14) =>
                        .ok ((flg, xfl, mtime, os, crc16, file_name, file_comment), p14)

/-- One member of gzip parse (src/gzip.rs lines 97–208): header, then the
DEFLATE payload inflated in place, then the CRC32/ISIZE trailer, checked by
`assert_eq!` against the inflate result. -/
def parseGzMember (fnameArg : List Nat) (memCount : Nat) (d : List Nat)
    (pos : Nat) : Except RErr (GzipMember × Nat) :=
  match parseGzHeader fnameArg memCount d pos with
  | .error e => .error e
  | .ok ((flg, xfl, mtime, os, crc16, file_name, file_comment), pHdr) =>
    match inflate (BitReader.newAt d pHdr) with
    | .error e => .error e
    | .ok ((sz, crc), _, br) =>
      match gzReadBytes 4 d br.pos with
      | .error e => .error e
      | .ok (crcB, p2) =>
        match gzReadBytes 4 d p2 with
        | .error e => .error e
        | .ok (isizeB, p3) =>
          if sz = leVal isizeB then
            if crc = leVal crcB then
              .ok (⟨flg, xfl, mtime, os, crc16, pHdr, leVal crcB, leVal isizeB,
                    file_name, file_comment⟩, p3)
            else .error (.assertFail "crc == crc32")
          else .error (.assertFail "decompressed_size == isize")

/-- The member loop of gzip parse (`while position != end`). -/
def parseGzLoop (fuel : Nat) (fnameArg d : List Nat) (pos : Nat)
    (acc : List GzipMember) : Except RErr (List GzipMember) :=
  match fuel with
  | 0 => .error .noFuel
  | f + 1 =>
    if pos = d.length then .ok acc
    else
      match parseGzMember fnameArg acc.length d pos with
      | .error e => .error e
      | .ok (m, p') => parseGzLoop f fnameArg d p' (acc ++ [m])

/-- parse from src/gzip.rs lines 85–211, over the file's bytes. -/
def gzipParse (fuel : Nat) (fnameArg d : List Nat) :
    Except RErr (List GzipMember) :=
  parseGzLoop fuel fnameArg d 0 []

/-- Success of one gzip member parse implies that its payload was fully
inflated at the recorded offset and that the inflate result matches the
member's trailer fields (the `assert_eq!` checks passed). -/
theorem parseGzMember_inflates (fnameArg : List Nat) (memCount : Nat)
    (d : List Nat) (pos : Nat) (m : GzipMember) (p' : Nat)
    (h : parseGzMember fnameArg memCount d pos = .ok (m, p')) :
    ∃ out br, inflate (BitReader.newAt d m.offset)
      = .ok ((m.isize, m.crc32), out, br) := by
  unfold parseGzMember at h
  repeat' split at h
  all_goals simp only [Except.ok.injEq, Prod.mk.injEq, reduceCtorEq] at h
  obtain ⟨hm, -⟩ := h
  subst hm
  subst_vars
  exact ⟨_, _, by assumption⟩

/-- The member loop preserves the per-member inflate/trailer property. -/
theorem parseGzLoop_inflates (fnameArg d : List Nat) :
    ∀ (fuel pos : Nat) (acc ms : List GzipMember),
      parseGzLoop fuel fnameArg d pos acc = .ok ms →
      (∀ m ∈ acc, ∃ out br, inflate (BitReader.newAt d m.offset)
        = .ok ((m.isize, m.crc32), out, br)) →
      ∀ m ∈ ms, ∃ out br, inflate (BitReader.newAt d m.offset)
        = .ok ((m.isize, m.crc32), out, br) := by
  intro fuel
  induction fuel with
  | zero => intro pos acc ms h _; exact absurd h (by simp [parseGzLoop])
  | succ f ih =>
    intro pos acc ms h hacc
    unfold parseGzLoop at h
    split at h
    · simp only [Except.ok.injEq] at h
      subst h
      exact hacc
    · split at h
      · exact absurd h (by simp)
      · rename_i m0 p0 hmem
        refine ih p0 (acc ++ [m0]) ms h ?_
        intro m hm
        rcases List.mem_append.mp hm with hl | hr
        · exact hacc m hl
        · rw [List.mem_singleton.mp hr]
          exact parseGzMember_inflates fnameArg acc.length d pos m0 p0 hmem

/-- C10: gzip parse does not merely scan headers — whenever it returns a
member list, every member's compressed payload was fully inflated during
parsing (at the member's recorded offset), and the inflate result equals the
member's trailer ISIZE and CRC-32 exactly; a mismatch makes parse abort via
`assert_eq!` instead of returning descriptors, so no member with unchecked
trailer fields can ever be returned. -/
theorem c10_gzip_parse_checks (fuel : Nat) (fnameArg d : List Nat)
    (ms : List GzipMember) (h : gzipParse fuel fnameArg d = .ok ms) :
    ∀ m ∈ ms, ∃ out br, inflate (BitReader.newAt d m.offset)
      = .ok ((m.isize, m.crc32), out, br) :=
  parseGzLoop_inflates fnameArg d fuel 0 [] ms h (by simp)

/-- A 20-byte single-member gzip file (empty fixed-Huffman DEFLATE payload
`[0x03, 0x00]`, zero CRC-32 and ISIZE trailer) on which gzip parse
succeeds. -/
def gzWitFile : List Nat :=
  [0x1F, 0x8B, 0x08, 0x00, 0, 0, 0, 0, 0x00, 0x00, 0x03, 0x00,
   0, 0, 0, 0, 0, 0, 0, 0]

/-- The member descriptor gzip parse produces for `gzWitFile`. -/
def gzWitMember : GzipMember :=
  ⟨⟨false, false, false, false, false⟩, 0, 0, 0, 0, 10, 0, 0, [97], []⟩

/-- C10 witness: on the concrete file `gzWitFile`, parse succeeds with one
member and the theorem yields its verified inflate result. -/
theorem c10_gzip_parse_checks_witness :
    ∃ out br, inflate (BitReader.newAt gzWitFile gzWitMember.offset)
      = .ok ((gzWitMember.isize, gzWitMember.crc32), out, br) :=
  c10_gzip_parse_checks 3 [97] gzWitFile [gzWitMember] (by decide)
    gzWitMember (by simp)
